import Mathlib

/-!
# SugarXPro: opening-book lookup and UCI option registry

A shallow embedding of

* the Polyglot opening-book index declared in `src/book.h` (`PolyglotBook::open`,
  `find_first`, `probe`).  Only the class declaration is part of the sources, so the
  member functions are modelled from the specification (§3, §4.2); every such
  definition says so in its doc comment;
* the UCI option registry of `src/ucioption.cpp` (`CaseInsensitiveLess`, `Option`,
  `Option::operator=`, `Option::operator int`, `Option::operator<<`, `init` and the
  printer `operator<<(std::ostream&, const OptionsMap&)`), translated from the source.

Definitions come first, theorems afterwards.
-/

namespace Book

/-! ## Data model of the book (spec §3) -/

/-- Modelled from the spec: the fixed 16-byte on-disk Record `{key:u64, move:u16,
weight:u16, learn:u32}` of §3 (the `Entry` type of the absent `book.cpp`), already
converted from big-endian to host order. -/
structure Entry where
  key : Nat
  move : Nat
  weight : Nat
  learn : Nat
deriving DecidableEq, Repr

/-- Modelled from the spec: the size in bytes of one Record (§3, "fixed 16 bytes"). -/
def sizeofEntry : Nat := 16

/-- Modelled from the spec: the book file invariant of §3, records sorted
non-decreasingly by key. -/
def SortedByKey (file : List Entry) : Prop :=
  file.Pairwise (fun a b => a.key ≤ b.key)

instance (file : List Entry) : Decidable (SortedByKey file) := by
  unfold SortedByKey; infer_instance

/-- Modelled from the spec: the end-of-file byte offset of a file of Records. -/
def endOfFile (file : List Entry) : Nat := file.length * sizeofEntry

/-- Modelled from the spec: seek to a byte offset and read one Record (the absent
`operator>>`); the read fails at or past end-of-file and at an offset that is not
a record boundary. -/
def readEntry (file : List Entry) (offset : Nat) : Option Entry :=
  if offset % sizeofEntry = 0 then file[offset / sizeofEntry]? else none

/-- Modelled from the spec: the loop of `find_first` (§4.2), a binary search over the
record indices `[low, high)` that reads the middle record by seeking to its byte
offset; `fuel` bounds the number of iterations. -/
def find_first_loop (file : List Entry) (key : Nat) : Nat → Nat → Nat → Nat
  | 0, low, _ => low
  | fuel + 1, low, high =>
    if low < high then
      let mid := (low + high) / 2
      match readEntry file (mid * sizeofEntry) with
      | some e =>
        if key ≤ e.key then find_first_loop file key fuel low mid
        else find_first_loop file key fuel (mid + 1) high
      | none => high
    else low

/-- Modelled from the spec: `PolyglotBook::find_first` (§4.2, body absent from the
sources): binary search over the file treated as an array of fixed-size records,
returning the byte offset of the first record whose key is ≥ the search key, or the
end-of-file offset if none qualifies. -/
def find_first (file : List Entry) (key : Nat) : Nat :=
  find_first_loop file key file.length 0 file.length * sizeofEntry

/-! ## Collaborators of the book (spec §6) -/

/-- Modelled from the spec: the two sides of the position abstraction (§6). -/
inductive Color
  | white
  | black
deriving DecidableEq, Repr

/-- Modelled from the spec: the piece kinds of the position abstraction (§6). -/
inductive PieceType
  | pawn
  | knight
  | bishop
  | rook
  | queen
  | king
deriving DecidableEq, Repr

/-- Modelled from the spec: the host engine's native move representation (§4.2 step 6,
the absent `Move` type): an ordinary move, a promotion with the promotion piece code
of the record (1..4 = knight/bishop/rook/queen), or a castling move of the king
toward a rook. "No move" is `none : Option Move`. -/
inductive Move
  | normal (orig dest : Nat)
  | promotion (orig dest code : Nat)
  | castling (kingSq rookSq : Nat)
deriving DecidableEq, Repr

/-- Modelled from the spec: the position abstraction consumed by the book (§6, the
absent `Position` class): piece occupancy by square, side to move, castling rights,
en-passant target square and the list of all currently legal moves. -/
structure Position where
  pieceOn : Nat → Option (Color × PieceType)
  sideToMove : Color
  castlingRights : Color → Bool → Bool
  epSquare : Option Nat
  legalMoves : List Move

/-- Modelled from the spec: the external collaborators of the Book Index (§2, §6): the
Position Key Deriver (its constant table is not part of the sources), the source of
uniform random numbers (the absent `PRNG` class, as a step function from a generator
state to a drawn value and the next state), and the storage, which maps a path to
the records of the file when the file can be opened for reading. -/
structure Collaborators where
  polyglot_key : Position → Nat
  rand : Nat → Nat × Nat
  files : String → Option (List Entry)

end Book

/-- Modelled from the spec: the state of a `PolyglotBook` object (`src/book.h`): the
members `rng` and `fileName`, and the inherited `std::ifstream`, which is either
closed (`none`) or open on the records of a file. -/
structure PolyglotBook where
  rng : Nat
  fileName : String
  handle : Option (List Book.Entry)

namespace Book

/-- Modelled from the spec: the open-handle invariant of §3: an open handle reads the
file that the cached path names (the file is an immutable artifact). -/
def HandleValid (env : Collaborators) (b : PolyglotBook) : Prop :=
  ∀ h, b.handle = some h → b.fileName ≠ "" ∧ env.files b.fileName = some h

/-- Modelled from the spec: the constructor `PolyglotBook()`: no file open, no path
cached, the generator seeded by the caller. -/
def create (seed : Nat) : PolyglotBook :=
  { rng := seed, fileName := "", handle := none }

/-- Modelled from the spec: `PolyglotBook::open` (§4.2, body absent from the sources):
close whatever is open, then try to open `fName` for binary reading. Failure
(missing file, permission denied, empty path) is reported by `false`, never by an
error; success caches the path. -/
def open_file (env : Collaborators) (b : PolyglotBook) (fName : String) :
    Bool × PolyglotBook :=
  if fName = "" then (false, { b with fileName := "", handle := none })
  else
    match env.files fName with
    | some file => (true, { b with fileName := fName, handle := some file })
    | none => (false, { b with fileName := "", handle := none })

/-- Modelled from the spec: step 1 of `probe` (§4.2): re-probing with the cached path
reuses the open handle, any other path closes and reopens. -/
def resolve (env : Collaborators) (b : PolyglotBook) (fName : String) : PolyglotBook :=
  if b.fileName = fName ∧ b.handle.isSome then b else (open_file env b fName).2

/-- Modelled from the spec: step 4 of `probe`: the linear scan forward from `offset`
while records have key == target. -/
def collectRun (file : List Entry) (key offset : Nat) : List Entry :=
  (file.drop (offset / sizeofEntry)).takeWhile (fun e => e.key == key)

/-- Modelled from the spec: steps 3 and 4 of `probe`: `offset = find_first(key)`; if
the record at `offset` (if any) does not have key == target there are no entries for
this position, otherwise the run of records with that key is collected. -/
def matchingRun (file : List Entry) (key : Nat) : List Entry :=
  match readEntry file (find_first file key) with
  | some e => if e.key = key then collectRun file key (find_first file key) else []
  | none => []

/-- Modelled from the spec: the running sum of weights of the run (step 4). -/
def weightSum (run : List Entry) : Nat := (run.map (fun e => e.weight)).sum

/-- Modelled from the spec: step 5 with `pickBest`: the position in the run of the
record with the maximum weight, ties broken by first occurrence in file order; `i`
is the position of `e`, `best`/`bestIdx` the best record so far. -/
def bestIndexFrom : List Entry → Nat → Nat → Nat → Nat
  | [], _, _, bestIdx => bestIdx
  | e :: es, i, best, bestIdx =>
    if best < e.weight then bestIndexFrom es (i + 1) e.weight i
    else bestIndexFrom es (i + 1) best bestIdx

/-- Modelled from the spec: step 5 with `pickBest`, on a whole run. -/
def bestIndex : List Entry → Option Nat
  | [] => none
  | e :: es => some (bestIndexFrom es 1 e.weight 0)

/-- Modelled from the spec: step 5 without `pickBest`: walk the list accumulating
weights until the running total exceeds the draw; the result is the position of the
record reached (`total` is the running total before the list). -/
def walkIndex (draw : Nat) : Nat → List Entry → Option Nat
  | _, [] => none
  | total, e :: es =>
    if draw < total + e.weight then some 0
    else (walkIndex draw (total + e.weight) es).map (fun i => i + 1)

/-- Modelled from the spec: step 5 without `pickBest`, from a raw random value `r`: a
uniform draw in `[0, weightSum)`, and when the weight sum is zero a uniform choice by
position in the run. -/
def randomIndex (run : List Entry) (r : Nat) : Option Nat :=
  if weightSum run = 0 then
    (if run.length = 0 then none else some (r % run.length))
  else walkIndex (r % weightSum run) 0 run

/-- Modelled from the spec: steps 1 to 5 of `probe` (§4.2): the selected record, if
any, and the state of the book afterwards. The random generator is stepped only
when a weighted-random selection is made. -/
def probeEntry (env : Collaborators) (b : PolyglotBook) (pos : Position)
    (fName : String) (pickBest : Bool) : Option Entry × PolyglotBook :=
  match (resolve env b fName).handle with
  | none => (none, resolve env b fName)
  | some file =>
    match matchingRun file (env.polyglot_key pos) with
    | [] => (none, resolve env b fName)
    | e :: es =>
      if pickBest then
        ((bestIndex (e :: es)).bind (fun i => (e :: es)[i]?), resolve env b fName)
      else
        ((randomIndex (e :: es) (env.rand (resolve env b fName).rng).1).bind
            (fun i => (e :: es)[i]?),
          { resolve env b fName with rng := (env.rand (resolve env b fName).rng).2 })

/-- Modelled from the spec: step 6 of `probe`: decode the packed move (bits [0,6)
destination, [6,12) origin, [12,15) promotion code); a king move onto the own-side
rook's square is reinterpreted as castling toward that rook. -/
def decode (pos : Position) (m : Nat) : Move :=
  if (m / 4096) % 8 ≠ 0 then Move.promotion ((m / 64) % 64) (m % 64) ((m / 4096) % 8)
  else if pos.pieceOn ((m / 64) % 64) = some (pos.sideToMove, PieceType.king)
      ∧ pos.pieceOn (m % 64) = some (pos.sideToMove, PieceType.rook) then
    Move.castling ((m / 64) % 64) (m % 64)
  else Move.normal ((m / 64) % 64) (m % 64)

/-- Modelled from the spec: steps 7 and 8 of `probe`: the decoded candidate is returned
only when it is found among the legal moves of the position. -/
def validate (pos : Position) (m : Move) : Option Move :=
  if m ∈ pos.legalMoves then some m else none

/-- Modelled from the spec: `PolyglotBook::probe` (§4.2, body absent from the sources):
the move found for the position, or `none` for "no move", and the state of the book
afterwards. -/
def probe (env : Collaborators) (b : PolyglotBook) (pos : Position)
    (fName : String) (pickBest : Bool) : Option Move × PolyglotBook :=
  match (probeEntry env b pos fName pickBest).1 with
  | none => (none, (probeEntry env b pos fName pickBest).2)
  | some e => (validate pos (decode pos e.move), (probeEntry env b pos fName pickBest).2)

/-! ## Sample data for the worked examples -/

/-- A sample position: white to move, king on e1 (4), rook on h1 (7); the legal
moves listed are e2e4 and g1f3. -/
def samplePosition : Position :=
  { pieceOn := fun sq =>
      if sq = 4 then some (Color.white, PieceType.king)
      else if sq = 7 then some (Color.white, PieceType.rook)
      else none,
    sideToMove := Color.white,
    castlingRights := fun _ _ => false,
    epSquare := none,
    legalMoves := [Move.normal 12 28, Move.normal 6 21] }

/-- A sample book file, sorted by key. The run of key 7 has the packed moves e2e4
(796), g1f3 (405) and d2d4 (731) with weights 10, 50 and 5. -/
def sampleFile : List Entry :=
  [⟨3, 796, 1, 0⟩, ⟨7, 796, 10, 0⟩, ⟨7, 405, 50, 0⟩, ⟨7, 731, 5, 0⟩, ⟨9, 796, 0, 0⟩]

/-- Sample collaborators: every position has key 7, the generator counts upwards
and draws its own state, and the only file is `book.bin`. -/
def sampleEnv : Collaborators :=
  { polyglot_key := fun _ => 7,
    rand := fun s => (s, s + 1),
    files := fun path => if path = "book.bin" then some sampleFile else none }

end Book

namespace UCI

/-! ## The option registry of `src/ucioption.cpp` -/

/-- The `tolower` of `<cctype>` in the "C" locale: `A`..`Z` go to `a`..`z`, every
other character is unchanged. Characters of a `std::string` are modelled by `Char`. -/
def tolower (c : Char) : Char := c.toLower

/-- The `std::lexicographical_compare` of `<algorithm>` with a comparison `comp`. -/
def lexicographical_compare (comp : Char → Char → Bool) : List Char → List Char → Bool
  | [], [] => false
  | [], _ :: _ => true
  | _ :: _, [] => false
  | a :: as, b :: bs =>
    if comp a b then true
    else if comp b a then false
    else lexicographical_compare comp as bs

/-- The comparison `CaseInsensitiveLess::operator()` (ucioption.cpp:114-118). -/
def CaseInsensitiveLess (s1 s2 : String) : Bool :=
  lexicographical_compare (fun c1 c2 => decide (tolower c1 < tolower c2)) s1.data s2.data

/-- The 'on change' actions of ucioption.cpp:56-111, by name; their effects (hash
table, threads, logger, piece values) lie outside the option registry. -/
inductive Handler
  | on_clear_hash
  | on_hash_size
  | on_large_pages
  | on_logger
  | on_threads
  | on_tb_path
  | on_HashFile
  | SaveHashtoFile
  | LoadHashfromFile
  | LoadEpdToHash
  | on_value
deriving DecidableEq, Repr

/-- Modelled from the spec: the function-pointer type `OnChange` (declared in the absent
`uci.h`), the change notification of the registry of §6; `none` is `nullptr`. -/
abbrev OnChange := Option Handler

/-- Modelled from the spec: the class `UCI::Option`, a named typed setting of the
registry of §6. Its declaration is in the absent `uci.h`; the fields are the ones
ucioption.cpp reads and writes: `min` and `max` are `int`, `idx` is `size_t`, the
others are `std::string` and `OnChange`. The name `Option` itself is taken by the
option type of Lean. -/
structure UciOption where
  defaultValue : String
  currentValue : String
  type : String
  min : Int
  max : Int
  idx : Nat
  on_change : OnChange
deriving DecidableEq, Repr

/-- The exceptions `std::stoi` throws, and a failed `assert`. -/
inductive Exn
  | invalid_argument
  | out_of_range
  | assertion_failed
deriving DecidableEq, Repr

/-- The `isspace` of `<cctype>` in the "C" locale: space, `\t`, `\n`, `\v`, `\f`, `\r`. -/
def isspace (c : Char) : Bool :=
  c.toNat = 32 || (9 ≤ c.toNat && c.toNat ≤ 13)

/-- The optional sign that `strtol` accepts: whether it is a minus, and the rest. -/
def stoi_sign : List Char → Bool × List Char
  | '-' :: cs => (true, cs)
  | '+' :: cs => (false, cs)
  | cs => (false, cs)

/-- The value of a run of decimal digits, most significant first. -/
def stoi_digits (ds : List Char) : Nat :=
  ds.foldl (fun acc c => 10 * acc + (c.toNat - 48)) 0

/-- The `std::stoi(const std::string&)` of `<string>` (base 10): skip leading white
space, read an optional sign and the longest run of decimal digits, ignore what
follows; no digit throws `invalid_argument`, a value outside `int` throws
`out_of_range`. -/
def stoi (s : String) : Except Exn Int :=
  let body := stoi_sign (s.data.dropWhile isspace)
  let ds := body.2.takeWhile Char.isDigit
  if ds = [] then Except.error Exn.invalid_argument
  else
    let v : Int := if body.1 then -(stoi_digits ds : Int) else (stoi_digits ds : Int)
    if v < -2147483648 ∨ 2147483647 < v then Except.error Exn.out_of_range
    else Except.ok v

/-- The `std::to_string(int)` of `<string>`. -/
def to_string (v : Int) : String := toString v

/-- The constructor `Option::Option(const char* v, OnChange f)` (ucioption.cpp:198). The
constructors leave `idx` uninitialised; the model writes 0. -/
def mkString (v : String) (f : OnChange) : UciOption :=
  { type := "string", min := 0, max := 0, on_change := f,
    defaultValue := v, currentValue := v, idx := 0 }

/-- The constructor `Option::Option(bool v, OnChange f)` (ucioption.cpp:201). -/
def mkCheck (v : Bool) (f : OnChange) : UciOption :=
  { type := "check", min := 0, max := 0, on_change := f,
    defaultValue := if v then "true" else "false",
    currentValue := if v then "true" else "false", idx := 0 }

/-- The constructor `Option::Option(OnChange f)` (ucioption.cpp:204); both values stay
empty strings. -/
def mkButton (f : OnChange) : UciOption :=
  { type := "button", min := 0, max := 0, on_change := f,
    defaultValue := "", currentValue := "", idx := 0 }

/-- The constructor `Option::Option(int v, int minv, int maxv, OnChange f)`
(ucioption.cpp:207). -/
def mkSpin (v minv maxv : Int) (f : OnChange) : UciOption :=
  { type := "spin", min := minv, max := maxv, on_change := f,
    defaultValue := to_string v, currentValue := to_string v, idx := 0 }

/-- The constructor `Option::Option(const char* v, const char* cur, OnChange f)`
(ucioption.cpp:210). -/
def mkCombo (v cur : String) (f : OnChange) : UciOption :=
  { type := "combo", min := 0, max := 0, on_change := f,
    defaultValue := v, currentValue := cur, idx := 0 }

/-- The conversion `Option::operator int()` (ucioption.cpp:213-216), with its `assert`. -/
def toInt (o : UciOption) : Except Exn Int :=
  if ¬ (o.type = "check" ∨ o.type = "spin") then Except.error Exn.assertion_failed
  else if o.type = "spin" then stoi o.currentValue
  else Except.ok (if o.currentValue = "true" then 1 else 0)

/-- The condition of the `if` of `Option::operator=` (ucioption.cpp:249-251), with the
short-circuit evaluation of `||` and `&&`: `stoi` runs only for a non-empty value of
a spin option, and a second time only when the first result is not below `min`. -/
def rejects (o : UciOption) (v : String) : Except Exn Bool :=
  if o.type ≠ "button" ∧ v = "" then Except.ok true
  else if o.type = "check" ∧ v ≠ "true" ∧ v ≠ "false" then Except.ok true
  else if o.type = "spin" then
    match stoi v with
    | Except.error e => Except.error e
    | Except.ok a =>
      if a < o.min then Except.ok true
      else
        match stoi v with
        | Except.error e => Except.error e
        | Except.ok b => Except.ok (decide (o.max < b))
  else Except.ok false

/-- Lines 254-255 of `Option::operator=`: `if (type != "button") currentValue = v;`. -/
def accepted (o : UciOption) (v : String) : UciOption :=
  if o.type ≠ "button" then { o with currentValue := v } else o

/-- The assignment `Option::operator=(const string& v)` (ucioption.cpp:245-261), with its
`assert`: the option afterwards and
the `on_change` calls made, each with the option it was passed; an exception leaves
the option as it was. -/
def assign (o : UciOption) (v : String) :
    Except Exn (UciOption × List (Handler × UciOption)) :=
  if o.type = "" then Except.error Exn.assertion_failed
  else
    match rejects o v with
    | Except.error e => Except.error e
    | Except.ok true => Except.ok (o, [])
    | Except.ok false =>
      match o.on_change with
      | some f => Except.ok (accepted o v, [(f, accepted o v)])
      | none => Except.ok (accepted o v, [])

/-- The rejection condition in the words of the claim about `Option::operator=`: the
type is not button and the value is empty, or the type is check and the value is
neither "true" nor "false", or the type is spin and the integer parsed from the
value is below `min` or above `max`. No integer is parsed from a value on which
`stoi` throws. -/
def RejectCondition (o : UciOption) (v : String) : Prop :=
  (o.type ≠ "button" ∧ v = "") ∨
  (o.type = "check" ∧ v ≠ "true" ∧ v ≠ "false") ∨
  (o.type = "spin" ∧ ∃ n, stoi v = Except.ok n ∧ (n < o.min ∨ o.max < n))

/-- Modelled from the spec: the type `OptionsMap`, the registry of named settings of
§6. Its typedef is in the absent `uci.h`; ucioption.cpp uses it as a `std::map` from
names to options (`o[name]`, `size()`, iteration over `first`/`second`) ordered by
`CaseInsensitiveLess`. The model is the list of entries in the order the map
iterates them. -/
abbrev OptionsMap := List (String × UciOption)

/-- Modelled from the spec: the lookup `std::map::find` of the registry: the entry
whose key is equivalent to `name` under the comparison of the map, searched in
key order. -/
def find : OptionsMap → String → Option UciOption
  | [], _ => none
  | (k, v) :: rest, name =>
    if CaseInsensitiveLess k name then find rest name
    else if CaseInsensitiveLess name k then none
    else some v

/-- Modelled from the spec: the subscript `std::map::operator[]` of the registry,
followed by a write `f` through the returned reference: the
entry equivalent to `name` is updated in place; when there is none, a
default-constructed `Option()` (a button without action) is inserted first, at the
place the ordering gives it. -/
def update : OptionsMap → String → (UciOption → UciOption) → OptionsMap
  | [], name, f => [(name, f (mkButton none))]
  | (k, v) :: rest, name, f =>
    if CaseInsensitiveLess k name then (k, v) :: update rest name f
    else if CaseInsensitiveLess name k then (name, f (mkButton none)) :: (k, v) :: rest
    else (k, f v) :: rest

/-- The global state the registry lives in: the `Options` object and the function-local
static `insert_order` of `Option::operator<<`. -/
structure Globals where
  options : OptionsMap
  insert_order : Nat

/-- The state at program start: an empty `Options` map, `insert_order` 0. -/
def Globals.start : Globals := { options := [], insert_order := 0 }

/-- The registration `Option::operator<<(const Option& o)` (ucioption.cpp:232-238):
`*this = o` copies every
field, then `idx = insert_order++`. -/
def shiftIn (insert_order : Nat) (_self o : UciOption) : UciOption :=
  { o with idx := insert_order }

/-- One registration statement `o[name] << opt` of `init`. -/
def register (name : String) (opt : UciOption) (g : Globals) : Globals :=
  { options := update g.options name (fun self => shiftIn g.insert_order self opt),
    insert_order := g.insert_order + 1 }

/-- The conversion of an `unsigned` to `int` at the call `Option(n, unsigned(1),
unsigned(512), on_threads)`. -/
def unsigned_to_int (n : Nat) : Int :=
  if n % 4294967296 < 2147483648 then (n % 4294967296 : Nat)
  else ((n % 4294967296 : Nat) : Int) - 4294967296

/-- The function `init(OptionsMap& o)` (ucioption.cpp:123-168), on the global `Options`.
`Is64Bit` (of the
absent `types.h`) and the result of `std::thread::hardware_concurrency()` are
parameters. The closing `on_value(Option())` reads two options and rewrites the
piece values, which are not part of the registry. -/
def init (Is64Bit : Bool) (hardware_concurrency : Nat) (g : Globals) : Globals :=
  let MaxHashMB : Int := if Is64Bit then 131072 else 2048
  let n : Nat := if hardware_concurrency % 4294967296 = 0 then 1
    else hardware_concurrency % 4294967296
  g |> register "Debug Log File" (mkString "" (some Handler.on_logger))
    |> register "Book File" (mkString "book.bin" none)
    |> register "Best Book Move" (mkCheck false none)
    |> register "Contempt" (mkSpin 24 (-100) 100 none)
    |> register "Analysis_CT" (mkCombo "Both var Off var White var Black var Both" "Both" none)
    |> register "Threads" (mkSpin (unsigned_to_int n) (unsigned_to_int 1)
        (unsigned_to_int 512) (some Handler.on_threads))
    |> register "Hash" (mkSpin 16 1 MaxHashMB (some Handler.on_hash_size))
    |> register "OwnBook" (mkCheck false none)
    |> register "Clear_Hash" (mkButton (some Handler.on_clear_hash))
    |> register "Ponder" (mkCheck false none)
    |> register "MultiPV" (mkSpin 1 1 500 none)
    |> register "Skill Level" (mkSpin 20 0 20 none)
    |> register "Move Overhead" (mkSpin 100 0 5000 none)
    |> register "Minimum Thinking Time" (mkSpin 20 0 5000 none)
    |> register "Slow Mover" (mkSpin 84 10 1000 none)
    |> register "nodestime" (mkSpin 0 0 10000 none)
    |> register "UCI_Chess960" (mkCheck false none)
    |> register "NeverClearHash" (mkCheck false none)
    |> register "HashFile" (mkString "hash.hsh" (some Handler.on_HashFile))
    |> register "SaveHashtoFile" (mkButton (some Handler.SaveHashtoFile))
    |> register "LoadHashfromFile" (mkButton (some Handler.LoadHashfromFile))
    |> register "LoadEpdToHash" (mkButton (some Handler.LoadEpdToHash))
    |> register "UCI_AnalyseMode" (mkCheck false none)
    |> register "Large Pages" (mkCheck true (some Handler.on_large_pages))
    |> register "ICCF Analyzes" (mkSpin 0 0 8 none)
    |> register "Clear Search" (mkCheck false none)
    |> register "NullMove" (mkCheck true none)
    |> register "SyzygyPath" (mkString "<empty>" (some Handler.on_tb_path))
    |> register "SyzygyProbeDepth" (mkSpin 1 1 100 none)
    |> register "Syzygy50MoveRule" (mkCheck true none)
    |> register "SyzygyProbeLimit" (mkSpin 7 0 7 none)
    |> register "Move Base Importance" (mkSpin 5 0 2000 none)
    |> register "ScalePiecesMgValues" (mkSpin 5 (-3000) 10000 (some Handler.on_value))
    |> register "ScalePiecesEgValues" (mkSpin 10 (-3000) 10000 (some Handler.on_value))

/-- The registrations of `init` in source order, as (name, option) pairs. -/
def initRegistrations (Is64Bit : Bool) (hardware_concurrency : Nat) :
    List (String × UciOption) :=
  [("Debug Log File", mkString "" (some Handler.on_logger)),
   ("Book File", mkString "book.bin" none),
   ("Best Book Move", mkCheck false none),
   ("Contempt", mkSpin 24 (-100) 100 none),
   ("Analysis_CT", mkCombo "Both var Off var White var Black var Both" "Both" none),
   ("Threads", mkSpin
      (unsigned_to_int (if hardware_concurrency % 4294967296 = 0 then 1
        else hardware_concurrency % 4294967296))
      (unsigned_to_int 1) (unsigned_to_int 512) (some Handler.on_threads)),
   ("Hash", mkSpin 16 1 (if Is64Bit then 131072 else 2048) (some Handler.on_hash_size)),
   ("OwnBook", mkCheck false none),
   ("Clear_Hash", mkButton (some Handler.on_clear_hash)),
   ("Ponder", mkCheck false none),
   ("MultiPV", mkSpin 1 1 500 none),
   ("Skill Level", mkSpin 20 0 20 none),
   ("Move Overhead", mkSpin 100 0 5000 none),
   ("Minimum Thinking Time", mkSpin 20 0 5000 none),
   ("Slow Mover", mkSpin 84 10 1000 none),
   ("nodestime", mkSpin 0 0 10000 none),
   ("UCI_Chess960", mkCheck false none),
   ("NeverClearHash", mkCheck false none),
   ("HashFile", mkString "hash.hsh" (some Handler.on_HashFile)),
   ("SaveHashtoFile", mkButton (some Handler.SaveHashtoFile)),
   ("LoadHashfromFile", mkButton (some Handler.LoadHashfromFile)),
   ("LoadEpdToHash", mkButton (some Handler.LoadEpdToHash)),
   ("UCI_AnalyseMode", mkCheck false none),
   ("Large Pages", mkCheck true (some Handler.on_large_pages)),
   ("ICCF Analyzes", mkSpin 0 0 8 none),
   ("Clear Search", mkCheck false none),
   ("NullMove", mkCheck true none),
   ("SyzygyPath", mkString "<empty>" (some Handler.on_tb_path)),
   ("SyzygyProbeDepth", mkSpin 1 1 100 none),
   ("Syzygy50MoveRule", mkCheck true none),
   ("SyzygyProbeLimit", mkSpin 7 0 7 none),
   ("Move Base Importance", mkSpin 5 0 2000 none),
   ("ScalePiecesMgValues", mkSpin 5 (-3000) 10000 (some Handler.on_value)),
   ("ScalePiecesEgValues", mkSpin 10 (-3000) 10000 (some Handler.on_value))]

/-- A map populated through the registration operator: the statements
`o[name] << opt` for the pairs of `regs`, in order. -/
def registerAll (regs : List (String × UciOption)) (g : Globals) : Globals :=
  regs.foldl (fun acc r => register r.1 r.2 acc) g

/-- Names that are pairwise different under the comparison of the map, that is,
pairwise different even when letter case is ignored. -/
def DistinctNames (names : List String) : Prop :=
  names.Pairwise (fun a b => CaseInsensitiveLess a b = true ∨ CaseInsensitiveLess b a = true)

instance (names : List String) : Decidable (DistinctNames names) := by
  unfold DistinctNames; infer_instance

/-- The registrations `regs` with the `idx` each receives when the first of them is
registered at `insert_order = i`. -/
def stamp : Nat → List (String × UciOption) → List (String × UciOption)
  | _, [] => []
  | i, r :: rs => (r.1, { r.2 with idx := i }) :: stamp (i + 1) rs

/-- The writes of the printer for one entry (ucioption.cpp:180-187), appended to the
stream `os`; `os << o.min` writes an `int` in decimal, as `to_string` does. -/
def writeEntry (os : String) (name : String) (o : UciOption) : String :=
  let os1 := os ++ "\noption name " ++ name ++ " type " ++ o.type
  let os2 := if o.type ≠ "button" then os1 ++ " default " ++ o.defaultValue else os1
  if o.type = "spin" then os2 ++ " min " ++ to_string o.min ++ " max " ++ to_string o.max
  else os2

/-- The inner loop of the printer (ucioption.cpp:177-190): the first entry, in the
iteration order of the map, whose `idx` is the one looked for; the `break` ends
the loop there. -/
def firstWithIdx (om : OptionsMap) (idx : Nat) : Option (String × UciOption) :=
  om.find? (fun it => decide (it.2.idx = idx))

/-- The printer `operator<<(std::ostream& os, const OptionsMap& om)`
(ucioption.cpp:174-193): for each `idx` from 0 to `om.size() - 1`, the entry with that
`idx`, if the map has one, is written to the stream. The result is the content of
the stream afterwards. -/
def printOptions (os : String) (om : OptionsMap) : String :=
  (List.range om.length).foldl
    (fun acc idx =>
      match firstWithIdx om idx with
      | some it => writeEntry acc it.1 it.2
      | none => acc)
    os

/-- The entries the printer writes, in the order it writes them. -/
def printedEntries (om : OptionsMap) : List (String × UciOption) :=
  (List.range om.length).filterMap (firstWithIdx om)

/-- The entry format in the words of the claim about the printer: the text
"\noption name <name> type <type>", followed by " default <defaultValue>" exactly
when the type is not button, followed by " min <min> max <max>" exactly when the
type is spin. -/
def entryFormat (name : String) (o : UciOption) : String :=
  "\noption name " ++ name ++ " type " ++ o.type
    ++ (if o.type ≠ "button" then " default " ++ o.defaultValue else "")
    ++ (if o.type = "spin" then " min " ++ to_string o.min ++ " max " ++ to_string o.max
        else "")

/-- The text of a list of entries in that format, one after the other. -/
def entriesText : List (String × UciOption) → String
  | [] => ""
  | p :: ps => entryFormat p.1 p.2 ++ entriesText ps

/-- A sequence of `operator=` calls on one option, each with the next value; the
sequence ends at the first call that throws. -/
def assignSeq (o : UciOption) : List String → Except Exn UciOption
  | [] => Except.ok o
  | v :: vs =>
    match assign o v with
    | Except.error e => Except.error e
    | Except.ok r => assignSeq r.1 vs

end UCI

/-! # Theorems -/

namespace Book

/-! ## `find_first`: lower-bound semantics -/

theorem readEntry_mul (file : List Entry) (i : Nat) :
    readEntry file (i * sizeofEntry) = file[i]? := by
  simp [readEntry, sizeofEntry]

theorem sorted_key_le {file : List Entry} (h : SortedByKey file) {i j : Nat}
    (hi : i < file.length) (hj : j < file.length) (hij : i ≤ j) :
    file[i].key ≤ file[j].key := by
  rcases Nat.lt_or_eq_of_le hij with hlt | heq
  · exact (List.pairwise_iff_getElem.mp h) i j hi hj hlt
  · subst heq; exact le_refl _

/-- Loop invariant of the binary search: below `low` every key is smaller than `k`,
from `high` on every key is at least `k`; with fuel for `high - low` iterations
the loop ends at the boundary between the two. -/
theorem find_first_loop_spec (file : List Entry) (k : Nat) (hs : SortedByKey file) :
    ∀ (fuel low high : Nat), low ≤ high → high ≤ file.length → high - low ≤ fuel →
      (∀ j (hj : j < file.length), j < low → file[j].key < k) →
      (∀ j (hj : j < file.length), high ≤ j → k ≤ file[j].key) →
      find_first_loop file k fuel low high ≤ file.length ∧
      (∀ j (hj : j < file.length),
        j < find_first_loop file k fuel low high → file[j].key < k) ∧
      (∀ j (hj : j < file.length),
        find_first_loop file k fuel low high ≤ j → k ≤ file[j].key) := by
  intro fuel
  induction fuel with
  | zero =>
    intro low high hlh hhn hf hlo hhi
    have : low = high := by omega
    subst this
    simp only [find_first_loop]
    exact ⟨hhn, hlo, hhi⟩
  | succ fuel ih =>
    intro low high hlh hhn hf hlo hhi
    simp only [find_first_loop]
    by_cases hlt : low < high
    · have hmid : (low + high) / 2 < file.length := by omega
      simp only [if_pos hlt, readEntry_mul, List.getElem?_eq_getElem hmid]
      by_cases hk : k ≤ (file[(low + high) / 2]).key
      · simp only [if_pos hk]
        refine ih low ((low + high) / 2) (by omega) (by omega) (by omega) hlo ?_
        intro j hj hmj
        exact le_trans hk (sorted_key_le hs hmid hj hmj)
      · simp only [if_neg hk]
        refine ih ((low + high) / 2 + 1) high (by omega) hhn (by omega) ?_ hhi
        intro j hj hjm
        have := sorted_key_le hs hj hmid (show j ≤ (low + high) / 2 by omega)
        omega
    · have : low = high := by omega
      subst this
      simp only [if_neg hlt]
      exact ⟨hhn, hlo, hhi⟩

/-- The record index `find_first` stops at, characterised on a sorted file. -/
theorem find_first_index (file : List Entry) (k : Nat) (hs : SortedByKey file) :
    ∃ i, find_first file k = i * sizeofEntry ∧ i ≤ file.length ∧
      (∀ j (hj : j < file.length), j < i → file[j].key < k) ∧
      (∀ j (hj : j < file.length), i ≤ j → k ≤ file[j].key) := by
  have h := find_first_loop_spec file k hs file.length 0 file.length (Nat.zero_le _)
    (le_refl _) (by omega) (by intro j _ hj; omega) (by intro j hj hj2; omega)
  exact ⟨find_first_loop file k file.length 0 file.length, rfl, h⟩

/-- C1: on every book file whose records are sorted non-decreasingly by key, and for
every key `k`, `find_first` returns the byte offset `i * 16` of a record boundary
such that every earlier record has key < `k` and the record at `i` (and every later
one) has key ≥ `k`; it returns the end-of-file offset exactly when no record has
key ≥ `k` (so for `k` above the maximum key), and offset 0 when `k` is at or below
the minimum key. -/
theorem find_first_lower_bound (file : List Entry) (k : Nat) (hs : SortedByKey file) :
    ∃ i, find_first file k = i * sizeofEntry ∧ i ≤ file.length ∧
      (∀ j (hj : j < file.length), j < i → file[j].key < k) ∧
      (∀ j (hj : j < file.length), i ≤ j → k ≤ file[j].key) ∧
      (∀ (hi : i < file.length), k ≤ file[i].key) ∧
      ((∀ e ∈ file, e.key < k) ↔ find_first file k = endOfFile file) ∧
      ((∀ e ∈ file, k ≤ e.key) → find_first file k = 0) := by
  obtain ⟨i, hi, h1, h2, h3⟩ := find_first_index file k hs
  refine ⟨i, hi, h1, h2, h3, fun hlt => h3 _ hlt (le_refl _), ⟨?_, ?_⟩, ?_⟩
  · intro hall
    rw [hi]
    unfold endOfFile
    congr 1
    by_contra hne
    have hlt : i < file.length := by omega
    have := h3 _ hlt (le_refl _)
    have := hall _ (List.getElem_mem hlt)
    omega
  · intro heq e he
    rw [hi] at heq
    unfold endOfFile sizeofEntry at heq
    obtain ⟨j, hj, rfl⟩ := List.getElem_of_mem he
    exact h2 j hj (by omega)
  · intro hall
    rw [hi]
    by_contra hne
    have hpos : 0 < i := by
      rcases Nat.eq_zero_or_pos i with h0 | h0
      · subst h0; simp at hne
      · exact h0
    have hlen : 0 < file.length := by omega
    have := h2 0 hlen hpos
    have := hall _ (List.getElem_mem hlen)
    omega

/-- The sample book is sorted; searching key 7 in it gives the byte offset of its
second record. -/
theorem find_first_lower_bound_witness :
    SortedByKey sampleFile ∧ find_first sampleFile 7 = 16 ∧
    ∃ i, find_first sampleFile 7 = i * sizeofEntry ∧ i ≤ sampleFile.length ∧
      (∀ j (hj : j < sampleFile.length), j < i → sampleFile[j].key < 7) ∧
      (∀ j (hj : j < sampleFile.length), i ≤ j → 7 ≤ sampleFile[j].key) ∧
      (∀ (hi : i < sampleFile.length), 7 ≤ sampleFile[i].key) ∧
      ((∀ e ∈ sampleFile, e.key < 7) ↔ find_first sampleFile 7 = endOfFile sampleFile) ∧
      ((∀ e ∈ sampleFile, 7 ≤ e.key) → find_first sampleFile 7 = 0) :=
  ⟨by decide, by decide, find_first_lower_bound sampleFile 7 (by decide)⟩

end Book

namespace Book

/-! ## `probe`: resolving the file -/

theorem resolve_handle (env : Collaborators) (b : PolyglotBook) (fName : String)
    (hv : HandleValid env b) :
    (resolve env b fName).handle = if fName = "" then none else env.files fName := by
  unfold resolve
  by_cases hc : b.fileName = fName ∧ b.handle.isSome
  · rw [if_pos hc]
    obtain ⟨h1, h2⟩ := hc
    obtain ⟨h, hh⟩ := Option.isSome_iff_exists.mp h2
    obtain ⟨hne, hfile⟩ := hv h hh
    rw [h1] at hne hfile
    rw [if_neg hne, hfile, hh]
  · rw [if_neg hc]
    unfold open_file
    by_cases he : fName = ""
    · simp [he]
    · simp only [if_neg he]
      cases hfile : env.files fName <;> simp

theorem resolve_handle_open (env : Collaborators) (b : PolyglotBook) (fName : String)
    (file : List Entry) (hv : HandleValid env b) (hne : fName ≠ "")
    (hf : env.files fName = some file) :
    (resolve env b fName).handle = some file := by
  rw [resolve_handle env b fName hv, if_neg hne, hf]

theorem resolve_valid (env : Collaborators) (b : PolyglotBook) (fName : String)
    (hv : HandleValid env b) : HandleValid env (resolve env b fName) := by
  unfold resolve
  by_cases hc : b.fileName = fName ∧ b.handle.isSome
  · rw [if_pos hc]; exact hv
  · rw [if_neg hc]
    unfold open_file
    by_cases he : fName = ""
    · simp [he, HandleValid]
    · simp only [if_neg he]
      cases hfile : env.files fName with
      | none => simp [HandleValid]
      | some f =>
        intro h hh
        simp only [Option.some.injEq] at hh
        subst hh
        exact ⟨he, hfile⟩

theorem create_valid (env : Collaborators) (seed : Nat) : HandleValid env (create seed) := by
  intro h hh
  simp [create] at hh

/-- The handle that `resolve` leaves does not depend on the generator. -/
theorem resolve_handle_rng (env : Collaborators) (b : PolyglotBook) (fName : String)
    (rand2 : Nat → Nat × Nat) (s : Nat) :
    (resolve { env with rand := rand2 } { b with rng := s } fName).handle
      = (resolve env b fName).handle := by
  unfold resolve open_file
  by_cases hc : b.fileName = fName ∧ b.handle.isSome
  · simp [hc]
  · simp only [hc, if_false]
    by_cases he : fName = ""
    · simp [he]
    · simp only [if_neg he]
      cases hfile : env.files fName <;> simp

/-! ## `probe`: the run of a key -/

theorem takeWhile_eq_filter_of_sorted (k : Nat) :
    ∀ (l : List Entry), SortedByKey l → (∀ e ∈ l, k ≤ e.key) →
      l.takeWhile (fun e => e.key == k) = l.filter (fun e => e.key == k) := by
  intro l
  induction l with
  | nil => intro _ _; rfl
  | cons a l ih =>
    intro hs hge
    have hs2 : SortedByKey l := (List.pairwise_cons.mp hs).2
    have ha : ∀ e ∈ l, a.key ≤ e.key := (List.pairwise_cons.mp hs).1
    by_cases hk : a.key = k
    · have hb : (a.key == k) = true := by simp [hk]
      rw [List.takeWhile_cons, List.filter_cons, hb]
      simp only [if_true]
      rw [ih hs2 (fun e he => hge e (List.mem_cons_of_mem _ he))]
    · have hb : (a.key == k) = false := by simp [hk]
      rw [List.takeWhile_cons, List.filter_cons, hb]
      simp only [Bool.false_eq_true, if_false]
      symm
      rw [List.filter_eq_nil_iff]
      intro e he
      have h1 := ha e he
      have h2 := hge a (List.mem_cons_self _ _)
      simp only [beq_iff_eq]
      omega

/-- On a sorted file the run that `probe` collects is the list of all records of the
file whose key is the target key, in file order. -/
theorem matchingRun_eq_filter (file : List Entry) (k : Nat) (hs : SortedByKey file) :
    matchingRun file k = file.filter (fun e => e.key == k) := by
  obtain ⟨i, hi, hle, hlo, hhi⟩ := find_first_index file k hs
  have hdrop : SortedByKey (file.drop i) := List.Pairwise.sublist (List.drop_sublist i file) hs
  have hge : ∀ e ∈ file.drop i, k ≤ e.key := by
    intro e he
    obtain ⟨j, hj, rfl⟩ := List.getElem_of_mem he
    rw [List.getElem_drop]
    exact hhi _ _ (by omega)
  have htake : (file.take i).filter (fun e => e.key == k) = [] := by
    rw [List.filter_eq_nil_iff]
    intro e he
    obtain ⟨j, hj, rfl⟩ := List.getElem_of_mem he
    rw [List.getElem_take]
    have hj2 : j < i := by
      rw [List.length_take] at hj; omega
    have := hlo j (by rw [List.length_take] at hj; omega) hj2
    simp only [beq_iff_eq]
    omega
  have hsplit : file.filter (fun e => e.key == k)
      = (file.drop i).filter (fun e => e.key == k) := by
    conv_lhs => rw [← List.take_append_drop i file]
    rw [List.filter_append, htake, List.nil_append]
  have hrun : collectRun file k (find_first file k) = file.filter (fun e => e.key == k) := by
    unfold collectRun
    rw [hi, hsplit]
    have : i * sizeofEntry / sizeofEntry = i := by simp [sizeofEntry]
    rw [this]
    exact takeWhile_eq_filter_of_sorted k _ hdrop hge
  unfold matchingRun
  rw [hrun, hi, readEntry_mul]
  cases hget : file[i]? with
  | none =>
    simp only
    have hlen : file.length ≤ i := by
      rcases Nat.lt_or_ge i file.length with h | h
      · rw [List.getElem?_eq_getElem h] at hget; simp at hget
      · exact h
    rw [hsplit, List.drop_of_length_le hlen]; rfl
  | some e =>
    simp only
    by_cases hk : e.key = k
    · rw [if_pos hk]
    · rw [if_neg hk]
      symm
      rw [hsplit, List.filter_eq_nil_iff]
      intro x hx
      have hilt : i < file.length := by
        rcases Nat.lt_or_ge i file.length with h | h
        · exact h
        · rw [List.getElem?_eq_none h] at hget; simp at hget
      rw [List.getElem?_eq_getElem hilt] at hget
      simp only [Option.some.injEq] at hget
      obtain ⟨j, hj, rfl⟩ := List.getElem_of_mem hx
      rw [List.getElem_drop]
      have h1 := sorted_key_le hs hilt (show i + j < file.length by
        rw [List.length_drop] at hj; omega) (Nat.le_add_right i j)
      have h2 := hhi i hilt (le_refl _)
      rw [hget] at h1 h2
      simp only [beq_iff_eq]
      omega

end Book

namespace Book

/-! ## `probe` with `pickBest` -/

theorem bestIndexFrom_spec :
    ∀ (es pre : List Entry) (best bestIdx : Nat),
      (∀ j x, j < pre.length → (pre ++ es)[j]? = some x → x.weight ≤ best) →
      (∃ y, (pre ++ es)[bestIdx]? = some y ∧ y.weight = best) →
      (∀ j x, j < bestIdx → (pre ++ es)[j]? = some x → x.weight < best) →
      ∃ y, (pre ++ es)[bestIndexFrom es pre.length best bestIdx]? = some y ∧
        (∀ x ∈ pre ++ es, x.weight ≤ y.weight) ∧
        (∀ j x, j < bestIndexFrom es pre.length best bestIdx →
          (pre ++ es)[j]? = some x → x.weight < y.weight) := by
  intro es
  induction es with
  | nil =>
    intro pre best bestIdx h1 h2 h3
    obtain ⟨y, hy, hyb⟩ := h2
    refine ⟨y, hy, ?_, ?_⟩
    · intro x hx
      obtain ⟨j, hj, rfl⟩ := List.getElem_of_mem hx
      rw [hyb]
      exact h1 j _ (by simpa using hj) (List.getElem?_eq_getElem hj)
    · intro j x hj hx
      rw [hyb]
      exact h3 j x hj hx
  | cons e es ih =>
    intro pre best bestIdx h1 h2 h3
    have happ : pre ++ e :: es = (pre ++ [e]) ++ es := by simp
    have hlen : (pre ++ [e]).length = pre.length + 1 := by simp
    have hmid : (pre ++ e :: es)[pre.length]? = some e := by
      rw [List.getElem?_append_right (le_refl _)]; simp
    simp only [bestIndexFrom]
    by_cases hb : best < e.weight
    · rw [if_pos hb, happ, ← hlen]
      apply ih
      · intro j x hj hx
        rw [← happ] at hx
        rw [hlen] at hj
        rcases Nat.lt_or_eq_of_le (Nat.le_of_lt_succ hj) with hlt | heq
        · exact le_of_lt (lt_of_le_of_lt (h1 j x hlt hx) hb)
        · subst heq
          rw [hmid] at hx
          simp only [Option.some.injEq] at hx
          subst hx; exact le_refl _
      · exact ⟨e, by rw [← happ]; exact hmid, rfl⟩
      · intro j x hj hx
        rw [← happ] at hx
        exact lt_of_le_of_lt (h1 j x hj hx) hb
    · rw [if_neg hb, happ, ← hlen]
      apply ih
      · intro j x hj hx
        rw [← happ] at hx
        rw [hlen] at hj
        rcases Nat.lt_or_eq_of_le (Nat.le_of_lt_succ hj) with hlt | heq
        · exact h1 j x hlt hx
        · subst heq
          rw [hmid] at hx
          simp only [Option.some.injEq] at hx
          subst hx; omega
      · rw [← happ]; exact h2
      · intro j x hj hx
        rw [← happ] at hx
        exact h3 j x hj hx

/-- On a non-empty run `bestIndex` is the first position of a maximum weight. -/
theorem bestIndex_spec (run : List Entry) (hne : run ≠ []) :
    ∃ i y, bestIndex run = some i ∧ run[i]? = some y ∧
      (∀ x ∈ run, x.weight ≤ y.weight) ∧
      (∀ j x, j < i → run[j]? = some x → x.weight < y.weight) := by
  cases run with
  | nil => exact absurd rfl hne
  | cons e es =>
    have h := bestIndexFrom_spec es [e] e.weight 0
      (by
        intro j x hj hx
        have : j = 0 := by simpa using hj
        subst this
        simp at hx
        subst hx; exact le_refl _)
      ⟨e, by simp, rfl⟩
      (by intro j x hj; omega)
    obtain ⟨y, hy, hmax, hfirst⟩ := h
    exact ⟨bestIndexFrom es 1 e.weight 0, y, rfl, hy, hmax, hfirst⟩

/-- The record `probe` selects with `pickBest`, on an open file. -/
theorem probeEntry_pickBest_eq (env : Collaborators) (b : PolyglotBook) (pos : Position)
    (fName : String) (file : List Entry)
    (hh : (resolve env b fName).handle = some file) :
    (probeEntry env b pos fName true).1
      = (bestIndex (matchingRun file (env.polyglot_key pos))).bind
          (fun i => (matchingRun file (env.polyglot_key pos))[i]?) := by
  unfold probeEntry
  rw [hh]
  simp only
  cases hrun : matchingRun file (env.polyglot_key pos) with
  | nil => simp [bestIndex]
  | cons e es => simp

/-- With `pickBest` the selected record does not depend on the random generator. -/
theorem probeEntry_pickBest_rng (env : Collaborators) (b : PolyglotBook) (pos : Position)
    (fName : String) (rand2 : Nat → Nat × Nat) (s : Nat) :
    (probeEntry { env with rand := rand2 } { b with rng := s } pos fName true).1
      = (probeEntry env b pos fName true).1 := by
  cases hh : (resolve env b fName).handle with
  | none =>
    have hh2 := resolve_handle_rng env b fName rand2 s
    rw [hh] at hh2
    unfold probeEntry
    rw [hh, hh2]
  | some file =>
    have hh2 := resolve_handle_rng env b fName rand2 s
    rw [hh] at hh2
    rw [probeEntry_pickBest_eq env b pos fName file hh,
      probeEntry_pickBest_eq _ _ pos fName file hh2]

theorem probe_fst (env : Collaborators) (b : PolyglotBook) (pos : Position)
    (fName : String) (pickBest : Bool) :
    (probe env b pos fName pickBest).1
      = ((probeEntry env b pos fName pickBest).1).bind
          (fun e => validate pos (decode pos e.move)) := by
  unfold probe
  cases (probeEntry env b pos fName pickBest).1 <;> rfl

/-- C2: with `pickBest` set, on a sorted book file that has a record for the position
key, `probe` selects the record at some position `i` of the run (all records of the
file with that key, in file order) such that no record of the run has a larger
weight and every record of the run before position `i` has a strictly smaller
weight (first occurrence of the maximum); the move returned is the validated
decoding of that record, and neither the selected record nor the returned move
depends on the random generator or its state. -/
theorem probe_pickBest_max_first (env : Collaborators) (b : PolyglotBook) (pos : Position)
    (fName : String) (file : List Entry)
    (hv : HandleValid env b) (hne : fName ≠ "") (hf : env.files fName = some file)
    (hs : SortedByKey file) (hrun : ∃ e ∈ file, e.key = env.polyglot_key pos) :
    ∃ i e, (file.filter (fun x => x.key == env.polyglot_key pos))[i]? = some e ∧
      (probeEntry env b pos fName true).1 = some e ∧
      (probe env b pos fName true).1 = validate pos (decode pos e.move) ∧
      (∀ x ∈ file, x.key = env.polyglot_key pos → x.weight ≤ e.weight) ∧
      (∀ (j : Nat) (x : Entry), j < i →
        (file.filter (fun z => z.key == env.polyglot_key pos))[j]? = some x →
        x.weight < e.weight) ∧
      (∀ (rand2 : Nat → Nat × Nat) (s : Nat),
        (probeEntry { env with rand := rand2 } { b with rng := s } pos fName true).1 = some e ∧
        (probe { env with rand := rand2 } { b with rng := s } pos fName true).1
          = validate pos (decode pos e.move)) := by
  have hh := resolve_handle_open env b fName file hv hne hf
  have hsel := probeEntry_pickBest_eq env b pos fName file hh
  rw [matchingRun_eq_filter file _ hs] at hsel
  have hnonempty : file.filter (fun x => x.key == env.polyglot_key pos) ≠ [] := by
    obtain ⟨e, he, hk⟩ := hrun
    intro hnil
    have : e ∈ file.filter (fun x => x.key == env.polyglot_key pos) := by
      rw [List.mem_filter]; exact ⟨he, by simp [hk]⟩
    rw [hnil] at this
    exact absurd this (List.not_mem_nil _)
  obtain ⟨i, y, hbi, hy, hmax, hfirst⟩ := bestIndex_spec _ hnonempty
  rw [hbi] at hsel
  simp only [Option.some_bind] at hsel
  rw [hy] at hsel
  have hprobe : (probe env b pos fName true).1 = validate pos (decode pos y.move) := by
    rw [probe_fst, hsel]; rfl
  refine ⟨i, y, hy, hsel, hprobe, ?_, hfirst, ?_⟩
  · intro x hx hk
    exact hmax x (by rw [List.mem_filter]; exact ⟨hx, by simp [hk]⟩)
  · intro rand2 s
    have h1 := probeEntry_pickBest_rng env b pos fName rand2 s
    refine ⟨by rw [h1, hsel], ?_⟩
    rw [probe_fst, h1, hsel]; rfl

end Book

namespace Book

/-! ## `probe` without `pickBest` -/

theorem weightSum_cons (a : Entry) (l : List Entry) :
    weightSum (a :: l) = a.weight + weightSum l := by
  simp [weightSum]

theorem weightSum_nil : weightSum [] = 0 := rfl

theorem weightSum_take_le : ∀ (run : List Entry) (n : Nat),
    weightSum (run.take n) ≤ weightSum run := by
  intro run
  induction run with
  | nil => intro n; simp [weightSum]
  | cons a l ih =>
    intro n
    cases n with
    | zero => simp [weightSum]
    | succ n =>
      rw [List.take_succ_cons, weightSum_cons, weightSum_cons]
      have := ih n
      omega

theorem weightSum_take_succ : ∀ (run : List Entry) (i : Nat) (e : Entry),
    run[i]? = some e → weightSum (run.take (i + 1)) = weightSum (run.take i) + e.weight := by
  intro run
  induction run with
  | nil => intro i e h; simp at h
  | cons a l ih =>
    intro i e h
    cases i with
    | zero =>
      simp at h
      subst h
      simp [weightSum]
    | succ i =>
      rw [List.getElem?_cons_succ] at h
      rw [List.take_succ_cons, List.take_succ_cons, weightSum_cons, weightSum_cons, ih i e h]
      omega

/-- The walk stops at position `i` exactly when the running total first exceeds the
draw there. -/
theorem walkIndex_iff : ∀ (run : List Entry) (total d i : Nat), total ≤ d →
    (walkIndex d total run = some i ↔
      ∃ e, run[i]? = some e ∧ total + weightSum (run.take i) ≤ d ∧
        d < total + weightSum (run.take i) + e.weight) := by
  intro run
  induction run with
  | nil =>
    intro total d i _
    simp [walkIndex]
  | cons a l ih =>
    intro total d i hd
    simp only [walkIndex]
    by_cases hlt : d < total + a.weight
    · rw [if_pos hlt]
      cases i with
      | zero =>
        simp only [List.getElem?_cons_zero, Option.some.injEq, List.take_zero, weightSum_nil,
          true_iff]
        exact ⟨a, rfl, by omega, by omega⟩
      | succ j =>
        simp only [Option.some.injEq, List.getElem?_cons_succ, List.take_succ_cons,
          weightSum_cons]
        constructor
        · intro h; omega
        · rintro ⟨e, _, h2, _⟩; omega
    · rw [if_neg hlt]
      cases i with
      | zero =>
        simp only [List.getElem?_cons_zero, Option.some.injEq, List.take_zero, weightSum_nil]
        constructor
        · intro h
          cases hw : walkIndex d (total + a.weight) l <;> simp [hw] at h
        · rintro ⟨e, he, _, h3⟩
          subst he; omega
      | succ j =>
        simp only [List.getElem?_cons_succ, List.take_succ_cons, weightSum_cons]
        have hih := ih (total + a.weight) d j (by omega)
        constructor
        · intro h
          have hj : walkIndex d (total + a.weight) l = some j := by
            cases hw : walkIndex d (total + a.weight) l with
            | none => simp [hw] at h
            | some x => simp [hw] at h; rw [h]
          obtain ⟨e, he, h2, h3⟩ := hih.mp hj
          exact ⟨e, he, by omega, by omega⟩
        · rintro ⟨e, he, h2, h3⟩
          have hj := hih.mpr ⟨e, he, by omega, by omega⟩
          rw [hj]; rfl

/-- A draw below the weight sum always stops the walk inside the run. -/
theorem walkIndex_isSome : ∀ (run : List Entry) (total d : Nat), total ≤ d →
    d < total + weightSum run → ∃ i, walkIndex d total run = some i := by
  intro run
  induction run with
  | nil => intro total d h0 h; simp only [weightSum_nil] at h; omega
  | cons a l ih =>
    intro total d h0 h
    simp only [walkIndex]
    by_cases hlt : d < total + a.weight
    · rw [if_pos hlt]; exact ⟨0, rfl⟩
    · rw [if_neg hlt]
      rw [weightSum_cons] at h
      obtain ⟨i, hi⟩ := ih (total + a.weight) d (by omega) (by omega)
      exact ⟨i + 1, by rw [hi]; rfl⟩

/-- The number of values below `n` that lie in `[a, b)`. -/
theorem length_filter_range_Ico (a b : Nat) : ∀ n : Nat,
    ((List.range n).filter (fun d => decide (a ≤ d ∧ d < b))).length
      = min b n - min a n := by
  intro n
  induction n with
  | zero => simp
  | succ n ih =>
    rw [List.range_succ, List.filter_append, List.length_append, ih]
    by_cases h : a ≤ n ∧ n < b
    · simp only [List.filter_cons, h, and_self, decide_True, if_true, List.filter_nil,
        List.length_singleton]
      omega
    · have hd : decide (a ≤ n ∧ n < b) = false := by simp [h]
      simp only [List.filter_cons, hd, List.filter_nil, List.length_nil]
      simp only [Bool.false_eq_true, if_false, List.length_nil]
      omega

theorem randomIndex_of_lt (run : List Entry) (d : Nat) (hd : d < weightSum run) :
    randomIndex run d = walkIndex d 0 run := by
  unfold randomIndex
  rw [if_neg (by omega), Nat.mod_eq_of_lt hd]

/-- Record `i` of the run is selected for exactly `weight_i` of the `weightSum`
draws. -/
theorem randomIndex_count (run : List Entry) (i : Nat) (e : Entry) (he : run[i]? = some e) :
    ((List.range (weightSum run)).filter
      (fun d => decide (randomIndex run d = some i))).length = e.weight := by
  have hcongr : (List.range (weightSum run)).filter
        (fun d => decide (randomIndex run d = some i))
      = (List.range (weightSum run)).filter
        (fun d => decide (weightSum (run.take i) ≤ d
          ∧ d < weightSum (run.take i) + e.weight)) := by
    apply List.filter_congr
    intro d hd
    rw [List.mem_range] at hd
    rw [randomIndex_of_lt run d hd]
    have hiff := walkIndex_iff run 0 d i (Nat.zero_le _)
    simp only [he, Option.some.injEq, Nat.zero_add, exists_eq_left'] at hiff
    simp only [decide_eq_decide]
    exact hiff
  rw [hcongr, length_filter_range_Ico]
  have h1 := weightSum_take_succ run i e he
  have h2 := weightSum_take_le run (i + 1)
  omega

theorem resolve_rng (env : Collaborators) (b : PolyglotBook) (fName : String) :
    (resolve env b fName).rng = b.rng := by
  unfold resolve open_file
  by_cases hc : b.fileName = fName ∧ b.handle.isSome
  · simp [hc]
  · simp only [hc, if_false]
    by_cases he : fName = ""
    · simp [he]
    · simp only [if_neg he]
      cases hfile : env.files fName <;> simp

/-- The record `probe` selects without `pickBest`, on an open file. -/
theorem probeEntry_random_eq (env : Collaborators) (b : PolyglotBook) (pos : Position)
    (fName : String) (file : List Entry)
    (hh : (resolve env b fName).handle = some file) :
    (probeEntry env b pos fName false).1
      = (randomIndex (matchingRun file (env.polyglot_key pos)) (env.rand b.rng).1).bind
          (fun i => (matchingRun file (env.polyglot_key pos))[i]?) := by
  unfold probeEntry
  rw [hh]
  simp only
  cases hrun : matchingRun file (env.polyglot_key pos) with
  | nil => simp [randomIndex, weightSum]
  | cons e es => simp [resolve_rng]

end Book

namespace Book

/-- The selection of C2 on the sample book: the run of key 7 has weights 10, 50, 5
and the record of weight 50 is selected. -/
theorem probe_pickBest_max_first_witness :
    (HandleValid sampleEnv (create 0) ∧ "book.bin" ≠ "" ∧
      sampleEnv.files "book.bin" = some sampleFile ∧ SortedByKey sampleFile ∧
      ∃ e ∈ sampleFile, e.key = sampleEnv.polyglot_key samplePosition) ∧
    ∃ i e, (sampleFile.filter
          (fun x => x.key == sampleEnv.polyglot_key samplePosition))[i]? = some e ∧
      (probeEntry sampleEnv (create 0) samplePosition "book.bin" true).1 = some e ∧
      (probe sampleEnv (create 0) samplePosition "book.bin" true).1
        = validate samplePosition (decode samplePosition e.move) ∧
      (∀ x ∈ sampleFile, x.key = sampleEnv.polyglot_key samplePosition →
        x.weight ≤ e.weight) ∧
      (∀ (j : Nat) (x : Entry), j < i →
        (sampleFile.filter
          (fun z => z.key == sampleEnv.polyglot_key samplePosition))[j]? = some x →
        x.weight < e.weight) ∧
      (∀ (rand2 : Nat → Nat × Nat) (s : Nat),
        (probeEntry { sampleEnv with rand := rand2 } { create 0 with rng := s }
          samplePosition "book.bin" true).1 = some e ∧
        (probe { sampleEnv with rand := rand2 } { create 0 with rng := s }
          samplePosition "book.bin" true).1
          = validate samplePosition (decode samplePosition e.move)) :=
  ⟨⟨create_valid _ _, by decide, rfl, by decide, ⟨⟨7, 796, 10, 0⟩, by decide, rfl⟩⟩,
    probe_pickBest_max_first sampleEnv (create 0) samplePosition "book.bin" sampleFile
      (create_valid _ _) (by decide) rfl (by decide) ⟨⟨7, 796, 10, 0⟩, by decide, rfl⟩⟩

/-- Weights [10, 50, 5]: whatever the seed of the generator, `probe` with `pickBest`
selects the record of weight 50 and returns its move g1f3. -/
theorem probe_pickBest_sample (seed : Nat) :
    (probeEntry sampleEnv (create seed) samplePosition "book.bin" true).1
        = some ⟨7, 405, 50, 0⟩ ∧
      (probe sampleEnv (create seed) samplePosition "book.bin" true).1
        = some (Move.normal 6 21) := by
  constructor <;> rfl

/-! ## `probe`: legality of the result -/

/-- C3: for every position, file and policy flag, a move returned by `probe` is a
member of the legal-move list of the supplied position (so the result is either
"no move" or a legal move), and when the record selected by `probe` decodes to a
move that is not legal the result is "no move". -/
theorem probe_legal_or_none (env : Collaborators) (b : PolyglotBook) (pos : Position)
    (fName : String) (pickBest : Bool) :
    (∀ m, (probe env b pos fName pickBest).1 = some m → m ∈ pos.legalMoves) ∧
    ((probe env b pos fName pickBest).1 = none ∨
      ∃ m ∈ pos.legalMoves, (probe env b pos fName pickBest).1 = some m) ∧
    (∀ e, (probeEntry env b pos fName pickBest).1 = some e →
      decode pos e.move ∉ pos.legalMoves → (probe env b pos fName pickBest).1 = none) := by
  have hmem : ∀ m, (probe env b pos fName pickBest).1 = some m → m ∈ pos.legalMoves := by
    intro m hm
    rw [probe_fst] at hm
    cases he : (probeEntry env b pos fName pickBest).1 with
    | none => rw [he] at hm; simp at hm
    | some e =>
      rw [he] at hm
      simp only [Option.some_bind, validate] at hm
      by_cases hl : decode pos e.move ∈ pos.legalMoves
      · rw [if_pos hl] at hm
        simp only [Option.some.injEq] at hm
        rw [← hm]; exact hl
      · rw [if_neg hl] at hm; simp at hm
  refine ⟨hmem, ?_, ?_⟩
  · cases hp : (probe env b pos fName pickBest).1 with
    | none => exact Or.inl rfl
    | some m => exact Or.inr ⟨m, hmem m hp, rfl⟩
  · intro e he hl
    rw [probe_fst, he]
    simp only [Option.some_bind, validate, if_neg hl]

/-- On the sample book, the draw 62 selects the record d2d4, which is not legal in
the sample position: the result is "no move". -/
theorem probe_legal_or_none_witness :
    (probeEntry sampleEnv (create 62) samplePosition "book.bin" false).1
        = some ⟨7, 731, 5, 0⟩ ∧
      decode samplePosition 731 ∉ samplePosition.legalMoves ∧
      (probe sampleEnv (create 62) samplePosition "book.bin" false).1 = none :=
  ⟨rfl, by decide,
    (probe_legal_or_none sampleEnv (create 62) samplePosition "book.bin" false).2.2
      ⟨7, 731, 5, 0⟩ rfl (by decide)⟩

end Book

namespace Book

/-! ## `probe`: weighted-random selection -/

theorem weightSum_eq_zero : ∀ (run : List Entry), weightSum run = 0 →
    ∀ x ∈ run, x.weight = 0 := by
  intro run
  induction run with
  | nil => intro _ x hx; exact absurd hx (List.not_mem_nil _)
  | cons a l ih =>
    intro h x hx
    rw [weightSum_cons] at h
    rcases List.mem_cons.mp hx with rfl | hx
    · omega
    · exact ih (by omega) x hx

theorem weightSum_take_mono (run : List Entry) (j i : Nat) (hji : j ≤ i) :
    weightSum (run.take j) ≤ weightSum (run.take i) := by
  have h := weightSum_take_le (run.take i) j
  rw [List.take_take, Nat.min_eq_left hji] at h
  exact h

/-- C4: with `pickBest` clear, on a sorted book file, writing `run` for the records of
the position key, `W` for their weight sum and `d` for the draw (the generator
value reduced modulo `W`): (1) if `W` is positive, `probe` selects the record at the
first position `i` of the run at which the running total of weights exceeds `d`
(the total up to and including every earlier record is at most `d`, the total
including record `i` is above `d`), that record has a positive weight, and the
move returned is its validated decoding; (2) for every position `i` of the run
the number of draws in `[0, W)` that select position `i` is exactly `weight_i`;
(3) a record of weight 0 is selected only if every record of the run has weight 0. -/
theorem probe_weighted_walk (env : Collaborators) (b : PolyglotBook) (pos : Position)
    (fName : String) (file : List Entry)
    (hv : HandleValid env b) (hne : fName ≠ "") (hf : env.files fName = some file)
    (hs : SortedByKey file) :
    (0 < weightSum (file.filter (fun x => x.key == env.polyglot_key pos)) →
      ∃ i e, (file.filter (fun x => x.key == env.polyglot_key pos))[i]? = some e ∧
        (probeEntry env b pos fName false).1 = some e ∧
        (probe env b pos fName false).1 = validate pos (decode pos e.move) ∧
        (∀ j, j < i →
          weightSum ((file.filter (fun x => x.key == env.polyglot_key pos)).take (j + 1))
            ≤ (env.rand b.rng).1
                % weightSum (file.filter (fun x => x.key == env.polyglot_key pos))) ∧
        (env.rand b.rng).1 % weightSum (file.filter (fun x => x.key == env.polyglot_key pos))
          < weightSum ((file.filter (fun x => x.key == env.polyglot_key pos)).take (i + 1)) ∧
        0 < e.weight) ∧
    (∀ (i : Nat) (e : Entry),
      (file.filter (fun x => x.key == env.polyglot_key pos))[i]? = some e →
      ((List.range (weightSum (file.filter (fun x => x.key == env.polyglot_key pos)))).filter
        (fun d => decide (randomIndex
          (file.filter (fun x => x.key == env.polyglot_key pos)) d = some i))).length
        = e.weight) ∧
    (∀ e, (probeEntry env b pos fName false).1 = some e → e.weight = 0 →
      ∀ x ∈ file.filter (fun x => x.key == env.polyglot_key pos), x.weight = 0) := by
  have hh := resolve_handle_open env b fName file hv hne hf
  have hsel := probeEntry_random_eq env b pos fName file hh
  rw [matchingRun_eq_filter file _ hs] at hsel
  generalize file.filter (fun x => x.key == env.polyglot_key pos) = run at hsel ⊢
  have hpos : 0 < weightSum run →
      ∃ i e, run[i]? = some e ∧ (probeEntry env b pos fName false).1 = some e ∧
        weightSum (run.take i) ≤ (env.rand b.rng).1 % weightSum run ∧
        (env.rand b.rng).1 % weightSum run < weightSum (run.take i) + e.weight := by
    intro hW
    have hd : (env.rand b.rng).1 % weightSum run < weightSum run := Nat.mod_lt _ hW
    obtain ⟨i, hi⟩ := walkIndex_isSome run 0 ((env.rand b.rng).1 % weightSum run)
      (Nat.zero_le _) (by omega)
    obtain ⟨e, he, h1, h2⟩ := (walkIndex_iff run 0 _ i (Nat.zero_le _)).mp hi
    refine ⟨i, e, he, ?_, by omega, by omega⟩
    rw [hsel]
    unfold randomIndex
    rw [if_neg (by omega), hi]
    exact he
  refine ⟨?_, ?_, ?_⟩
  · intro hW
    obtain ⟨i, e, he, hp, h1, h2⟩ := hpos hW
    refine ⟨i, e, he, hp, by rw [probe_fst, hp]; rfl, ?_, ?_, by omega⟩
    · intro j hj
      exact le_trans (weightSum_take_mono run (j + 1) i hj) h1
    · rw [weightSum_take_succ run i e he]; exact h2
  · intro i e he
    exact randomIndex_count run i e he
  · intro e hp he0
    rcases Nat.eq_zero_or_pos (weightSum run) with h0 | hW
    · exact weightSum_eq_zero run h0
    · obtain ⟨i, e2, _, hp2, h1, h2⟩ := hpos hW
      rw [hp] at hp2
      simp only [Option.some.injEq] at hp2
      subst hp2
      omega

/-- The sample book satisfies the hypotheses of C4; its run of key 7 has weights 10,
50, 5. -/
theorem probe_weighted_walk_witness :
    (HandleValid sampleEnv (create 62) ∧ "book.bin" ≠ "" ∧
      sampleEnv.files "book.bin" = some sampleFile ∧ SortedByKey sampleFile) ∧
    (probeEntry sampleEnv (create 62) samplePosition "book.bin" false).1
      = some ⟨7, 731, 5, 0⟩ ∧
    ((List.range (weightSum (sampleFile.filter
        (fun x => x.key == sampleEnv.polyglot_key samplePosition)))).filter
      (fun d => decide (randomIndex (sampleFile.filter
        (fun x => x.key == sampleEnv.polyglot_key samplePosition)) d = some 1))).length
      = 50 :=
  ⟨⟨create_valid _ _, by decide, rfl, by decide⟩, rfl,
    (probe_weighted_walk sampleEnv (create 62) samplePosition "book.bin" sampleFile
      (create_valid _ _) (by decide) rfl (by decide)).2.1 1 ⟨7, 405, 50, 0⟩ rfl⟩

/-! ## `probe`: no entry, no file -/

theorem matchingRun_nil_of_no_key (file : List Entry) (k : Nat)
    (hno : ∀ e ∈ file, e.key ≠ k) : matchingRun file k = [] := by
  unfold matchingRun
  cases hr : readEntry file (find_first file k) with
  | none => rfl
  | some e =>
    have hmem : e ∈ file := by
      unfold readEntry at hr
      by_cases hm : find_first file k % sizeofEntry = 0
      · rw [if_pos hm] at hr
        exact List.getElem?_mem hr
      · rw [if_neg hm] at hr; simp at hr
    simp only [if_neg (hno e hmem)]

theorem probeEntry_none_of_handle_none (env : Collaborators) (b : PolyglotBook)
    (pos : Position) (fName : String) (pickBest : Bool)
    (hh : (resolve env b fName).handle = none) :
    (probeEntry env b pos fName pickBest).1 = none := by
  unfold probeEntry
  rw [hh]

theorem probeEntry_none_of_run_nil (env : Collaborators) (b : PolyglotBook)
    (pos : Position) (fName : String) (pickBest : Bool) (file : List Entry)
    (hh : (resolve env b fName).handle = some file)
    (hrun : matchingRun file (env.polyglot_key pos) = []) :
    (probeEntry env b pos fName pickBest).1 = none := by
  unfold probeEntry
  rw [hh]
  simp only [hrun]

/-- C5: if no record of the book file has a key equal to the position key, `probe`
returns "no move" for either policy flag; in particular a zero-length file yields
"no move" for every position and either flag. -/
theorem probe_no_entry (env : Collaborators) (b : PolyglotBook) (fName : String)
    (file : List Entry) (hv : HandleValid env b) (hne : fName ≠ "")
    (hf : env.files fName = some file) :
    (∀ pos, (∀ e ∈ file, e.key ≠ env.polyglot_key pos) →
      ∀ pickBest, (probe env b pos fName pickBest).1 = none) ∧
    (file = [] → ∀ pos pickBest, (probe env b pos fName pickBest).1 = none) := by
  have hh := resolve_handle_open env b fName file hv hne hf
  have key : ∀ pos, (∀ e ∈ file, e.key ≠ env.polyglot_key pos) →
      ∀ pickBest, (probe env b pos fName pickBest).1 = none := by
    intro pos hno pickBest
    rw [probe_fst, probeEntry_none_of_run_nil env b pos fName pickBest file hh
      (matchingRun_nil_of_no_key file _ hno)]
    rfl
  refine ⟨key, ?_⟩
  intro hnil pos pickBest
  apply key
  intro e he
  rw [hnil] at he
  exact absurd he (List.not_mem_nil _)

/-- A zero-length book file: "no move" for every position and flag. -/
theorem probe_no_entry_witness :
    (HandleValid { sampleEnv with files := fun _ => some [] } (create 0) ∧
      "book.bin" ≠ "") ∧
    (([] : List Entry) = [] → ∀ pos pickBest,
      (probe { sampleEnv with files := fun _ => some [] } (create 0) pos
        "book.bin" pickBest).1 = none) :=
  ⟨⟨create_valid _ _, by decide⟩,
    (probe_no_entry { sampleEnv with files := fun _ => some [] } (create 0) "book.bin" []
      (create_valid _ _) (by decide) rfl).2⟩

/-- C6: if the book file cannot be opened (no readable file at the path, or an empty
path), `open` reports failure by returning `false` (it is a total function, no
error is raised) and leaves no file open, and `probe` returns "no move" for every
position and policy flag. -/
theorem probe_unopenable (env : Collaborators) (b : PolyglotBook) (fName : String)
    (hv : HandleValid env b) (hfail : fName = "" ∨ env.files fName = none) :
    (open_file env b fName).1 = false ∧
    (open_file env b fName).2.handle = none ∧
    (∀ pos pickBest, (probe env b pos fName pickBest).1 = none) := by
  have hopen : (open_file env b fName).1 = false ∧ (open_file env b fName).2.handle = none := by
    unfold open_file
    by_cases he : fName = ""
    · simp [he]
    · rcases hfail with h | h
      · exact absurd h he
      · simp [he, h]
  refine ⟨hopen.1, hopen.2, ?_⟩
  intro pos pickBest
  have hh : (resolve env b fName).handle = none := by
    rw [resolve_handle env b fName hv]
    by_cases he : fName = ""
    · rw [if_pos he]
    · rcases hfail with h | h
      · exact absurd h he
      · rw [if_neg he, h]
  rw [probe_fst, probeEntry_none_of_handle_none env b pos fName pickBest hh]
  rfl

/-- A path with no file behind it: `open` fails and `probe` finds no move. -/
theorem probe_unopenable_witness :
    (HandleValid sampleEnv (create 0) ∧
      ("missing.bin" = "" ∨ sampleEnv.files "missing.bin" = none)) ∧
    (open_file sampleEnv (create 0) "missing.bin").1 = false ∧
    (open_file sampleEnv (create 0) "missing.bin").2.handle = none ∧
    (∀ pos pickBest, (probe sampleEnv (create 0) pos "missing.bin" pickBest).1 = none) :=
  ⟨⟨create_valid _ _, Or.inr (by decide)⟩,
    probe_unopenable sampleEnv (create 0) "missing.bin" (create_valid _ _)
      (Or.inr (by decide))⟩

/-- The handle invariant is kept by `probe`, so it holds in every state reached from
a freshly constructed book. -/
theorem probe_valid (env : Collaborators) (b : PolyglotBook) (pos : Position)
    (fName : String) (pickBest : Bool) (hv : HandleValid env b) :
    HandleValid env (probe env b pos fName pickBest).2 := by
  have hr := resolve_valid env b fName hv
  have hp : (probe env b pos fName pickBest).2 = (probeEntry env b pos fName pickBest).2 := by
    unfold probe
    cases (probeEntry env b pos fName pickBest).1 <;> rfl
  rw [hp]
  unfold probeEntry
  cases hh : (resolve env b fName).handle with
  | none => exact hr
  | some file =>
    simp only
    cases hrun : matchingRun file (env.polyglot_key pos) with
    | nil => exact hr
    | cons e es =>
      cases pickBest with
      | true => exact hr
      | false =>
        intro h hhandle
        exact hr h hhandle

end Book

namespace UCI

/-! ## `CaseInsensitiveLess` -/

theorem not_lex_cons_of_gt {x y : Char} {l1 l2 : List Char} (h1 : ¬ x < y) (h2 : y < x) :
    ¬ List.Lex (fun a b => a < b) (x :: l1) (y :: l2) := by
  intro h
  cases h with
  | cons h => exact lt_irrefl _ h2
  | rel h => exact h1 h

/-- The comparison of `CaseInsensitiveLess` is the lexicographic order of the
lower-cased character lists. -/
theorem lexicographical_compare_iff_lex : ∀ (l1 l2 : List Char),
    lexicographical_compare (fun c1 c2 => decide (tolower c1 < tolower c2)) l1 l2 = true
      ↔ List.Lex (fun a b => a < b) (l1.map tolower) (l2.map tolower) := by
  intro l1
  induction l1 with
  | nil =>
    intro l2
    cases l2 with
    | nil => simp [lexicographical_compare]
    | cons b bs => simp [lexicographical_compare, List.Lex.nil]
  | cons a as ih =>
    intro l2
    cases l2 with
    | nil => simp [lexicographical_compare]
    | cons b bs =>
      simp only [lexicographical_compare, List.map_cons, decide_eq_true_eq]
      by_cases h1 : tolower a < tolower b
      · simp only [if_pos h1, true_iff]
        exact List.Lex.rel h1
      · rw [if_neg h1]
        by_cases h2 : tolower b < tolower a
        · simp only [if_pos h2, Bool.false_eq_true, false_iff]
          exact not_lex_cons_of_gt h1 h2
        · rw [if_neg h2, ih bs]
          have heq : tolower a = tolower b := le_antisymm (le_of_not_lt h2) (le_of_not_lt h1)
          rw [heq]
          exact (List.Lex.cons_iff).symm

theorem CaseInsensitiveLess_iff (s1 s2 : String) :
    CaseInsensitiveLess s1 s2 = true
      ↔ List.Lex (fun a b => a < b) (s1.data.map tolower) (s2.data.map tolower) :=
  lexicographical_compare_iff_lex s1.data s2.data

/-- The comparison depends on its arguments only through their lower-cased forms. -/
theorem CaseInsensitiveLess_congr (s1 t1 s2 t2 : String)
    (h1 : s1.data.map tolower = t1.data.map tolower)
    (h2 : s2.data.map tolower = t2.data.map tolower) :
    CaseInsensitiveLess s1 s2 = CaseInsensitiveLess t1 t2 := by
  rw [Bool.eq_iff_iff, CaseInsensitiveLess_iff, CaseInsensitiveLess_iff, h1, h2]

theorem CaseInsensitiveLess_irrefl (s : String) : CaseInsensitiveLess s s = false := by
  rw [Bool.eq_false_iff]
  intro h
  rw [CaseInsensitiveLess_iff] at h
  exact lt_irrefl (s.data.map tolower) h

theorem CaseInsensitiveLess_trans (s1 s2 s3 : String)
    (h12 : CaseInsensitiveLess s1 s2 = true) (h23 : CaseInsensitiveLess s2 s3 = true) :
    CaseInsensitiveLess s1 s3 = true := by
  rw [CaseInsensitiveLess_iff] at h12 h23 ⊢
  exact lt_trans (a := s1.data.map tolower) h12 h23

theorem CaseInsensitiveLess_equiv_iff (s1 s2 : String) :
    (CaseInsensitiveLess s1 s2 = false ∧ CaseInsensitiveLess s2 s1 = false)
      ↔ s1.data.map tolower = s2.data.map tolower := by
  rw [Bool.eq_false_iff, Bool.eq_false_iff, Ne, Ne, CaseInsensitiveLess_iff,
    CaseInsensitiveLess_iff]
  constructor
  · rintro ⟨h1, h2⟩
    exact le_antisymm (le_of_not_lt h2) (le_of_not_lt h1)
  · intro h
    rw [h]
    exact ⟨lt_irrefl (s2.data.map tolower), lt_irrefl (s2.data.map tolower)⟩

/-- C9: `CaseInsensitiveLess` is a case-insensitive strict weak ordering: for all
strings its result is the lexicographic less-than of the lower-cased forms (compared
character by character); it is irreflexive and transitive, and two names are
equivalent (neither less than the other) exactly when they are equal after
lower-casing. -/
theorem CaseInsensitiveLess_strict_weak_order :
    (∀ s1 s2 : String, CaseInsensitiveLess s1 s2 = true
      ↔ List.Lex (fun a b => a < b) (s1.data.map tolower) (s2.data.map tolower)) ∧
    (∀ s : String, CaseInsensitiveLess s s = false) ∧
    (∀ s1 s2 s3 : String, CaseInsensitiveLess s1 s2 = true →
      CaseInsensitiveLess s2 s3 = true → CaseInsensitiveLess s1 s3 = true) ∧
    (∀ s1 s2 : String,
      (CaseInsensitiveLess s1 s2 = false ∧ CaseInsensitiveLess s2 s1 = false)
        ↔ s1.data.map tolower = s2.data.map tolower) :=
  ⟨CaseInsensitiveLess_iff, CaseInsensitiveLess_irrefl, CaseInsensitiveLess_trans,
    CaseInsensitiveLess_equiv_iff⟩

/-- Two spellings of one name are equivalent, and `Hash` orders before `OwnBook`
whatever the case. -/
theorem CaseInsensitiveLess_strict_weak_order_witness :
    (CaseInsensitiveLess "OwnBook" "ownbook" = false ∧
      CaseInsensitiveLess "ownbook" "OwnBook" = false) ∧
    CaseInsensitiveLess "hash" "OwnBook" = true ∧
    CaseInsensitiveLess "HASH" "ownbook" = true :=
  ⟨(CaseInsensitiveLess_strict_weak_order.2.2.2 "OwnBook" "ownbook").mpr (by decide),
    by decide, by decide⟩

end UCI

namespace UCI

/-! ## The options map -/

theorem CaseInsensitiveLess_asymm (s1 s2 : String) (h : CaseInsensitiveLess s1 s2 = true) :
    CaseInsensitiveLess s2 s1 = false := by
  rw [Bool.eq_false_iff]
  intro h2
  have := CaseInsensitiveLess_trans s1 s2 s1 h h2
  rw [CaseInsensitiveLess_irrefl] at this
  exact Bool.false_ne_true this

/-- After a write under `k`, a lookup under any name equivalent to `k` finds the
written option. -/
theorem find_update_same (k name : String) (f : UciOption → UciOption)
    (h1 : CaseInsensitiveLess k name = false) (h2 : CaseInsensitiveLess name k = false) :
    ∀ m : OptionsMap,
      find (update m k f) name = some (f ((find m k).getD (mkButton none))) := by
  have hlow := (CaseInsensitiveLess_equiv_iff k name).mp ⟨h1, h2⟩
  intro m
  induction m with
  | nil => simp [update, find, h1, h2]
  | cons p rest ih =>
    obtain ⟨e, v⟩ := p
    have hc1 : CaseInsensitiveLess e name = CaseInsensitiveLess e k :=
      CaseInsensitiveLess_congr e e name k rfl hlow.symm
    have hc2 : CaseInsensitiveLess name e = CaseInsensitiveLess k e :=
      CaseInsensitiveLess_congr name k e e hlow.symm rfl
    simp only [update, find]
    cases hek : CaseInsensitiveLess e k with
    | true =>
      simp only [if_true, find, hc1, hek]
      exact ih
    | false =>
      simp only [Bool.false_eq_true, if_false]
      cases hke : CaseInsensitiveLess k e with
      | true => simp [find, h1, h2]
      | false => simp [find, hc1, hc2, hek, hke]

/-- A write under `k` does not change what a lookup under a name that is not
equivalent to `k` finds. -/
theorem find_update_other (k name : String) (f : UciOption → UciOption)
    (h : CaseInsensitiveLess k name = true ∨ CaseInsensitiveLess name k = true) :
    ∀ m : OptionsMap, find (update m k f) name = find m name := by
  intro m
  induction m with
  | nil =>
    rcases h with h | h
    · simp [update, find, h]
    · simp [update, find, h, CaseInsensitiveLess_asymm _ _ h]
  | cons p rest ih =>
    obtain ⟨e, v⟩ := p
    simp only [update]
    cases hek : CaseInsensitiveLess e k with
    | true =>
      simp only [if_true, find, ih]
    | false =>
      simp only [Bool.false_eq_true, if_false]
      cases hke : CaseInsensitiveLess k e with
      | true =>
        simp only [if_true]
        rcases h with h | h
        · simp only [find, h, if_true]
        · have hne : CaseInsensitiveLess name e = true :=
            CaseInsensitiveLess_trans name k e h hke
          simp [find, CaseInsensitiveLess_asymm _ _ h, h, hne,
            CaseInsensitiveLess_asymm _ _ hne]
      | false =>
        simp only [Bool.false_eq_true, if_false]
        have hlow := (CaseInsensitiveLess_equiv_iff e k).mp ⟨hek, hke⟩
        have hc1 : CaseInsensitiveLess e name = CaseInsensitiveLess k name :=
          CaseInsensitiveLess_congr e k name name hlow rfl
        have hc2 : CaseInsensitiveLess name e = CaseInsensitiveLess name k :=
          CaseInsensitiveLess_congr name name e k rfl hlow
        rcases h with h | h
        · simp [find, hc1, h]
        · simp [find, hc1, hc2, h, CaseInsensitiveLess_asymm _ _ h]

/-- A registration under a name equivalent to `name0`, looked up under any spelling
`name` of `name0`. -/
theorem find_register_same (k : String) (opt : UciOption) (g : Globals)
    (name name0 : String) (hn : name.data.map tolower = name0.data.map tolower)
    (h : (CaseInsensitiveLess k name0 = false ∧ CaseInsensitiveLess name0 k = false)) :
    find (register k opt g).options name = some { opt with idx := g.insert_order } := by
  have h1 : CaseInsensitiveLess k name = false := by
    rw [CaseInsensitiveLess_congr k k name name0 rfl hn]; exact h.1
  have h2 : CaseInsensitiveLess name k = false := by
    rw [CaseInsensitiveLess_congr name name0 k k hn rfl]; exact h.2
  unfold register
  simp only
  rw [find_update_same k name _ h1 h2]
  rfl

/-- A registration under a name not equivalent to `name0` is invisible to a lookup
under any spelling `name` of `name0`. -/
theorem find_register_other (k : String) (opt : UciOption) (g : Globals)
    (name name0 : String) (hn : name.data.map tolower = name0.data.map tolower)
    (h : (CaseInsensitiveLess k name0 || CaseInsensitiveLess name0 k) = true) :
    find (register k opt g).options name = find g.options name := by
  have h1 : CaseInsensitiveLess k name = CaseInsensitiveLess k name0 :=
    CaseInsensitiveLess_congr k k name name0 rfl hn
  have h2 : CaseInsensitiveLess name k = CaseInsensitiveLess name0 k :=
    CaseInsensitiveLess_congr name name0 k k hn rfl
  unfold register
  simp only
  apply find_update_other
  rw [h1, h2]
  simpa [Bool.or_eq_true] using h

theorem register_insert_order (k : String) (opt : UciOption) (g : Globals) :
    (register k opt g).insert_order = g.insert_order + 1 := rfl

/-! ## `init`: the book settings -/

theorem init_find_book_file (Is64Bit : Bool) (hc : Nat) (g : Globals) (name : String)
    (hn : name.data.map tolower = "Book File".data.map tolower) :
    find (init Is64Bit hc g).options name
      = some { mkString "book.bin" none with idx := g.insert_order + 1 } := by
  unfold init
  simp only
  iterate 32 refine (find_register_other _ _ _ name "Book File" hn (by decide)).trans ?_
  exact find_register_same _ _ _ name "Book File" hn (by decide)

theorem init_find_best_book_move (Is64Bit : Bool) (hc : Nat) (g : Globals) (name : String)
    (hn : name.data.map tolower = "Best Book Move".data.map tolower) :
    find (init Is64Bit hc g).options name
      = some { mkCheck false none with idx := g.insert_order + 2 } := by
  unfold init
  simp only
  iterate 31 refine (find_register_other _ _ _ name "Best Book Move" hn (by decide)).trans ?_
  exact find_register_same _ _ _ name "Best Book Move" hn (by decide)

theorem init_find_own_book (Is64Bit : Bool) (hc : Nat) (g : Globals) (name : String)
    (hn : name.data.map tolower = "OwnBook".data.map tolower) :
    find (init Is64Bit hc g).options name
      = some { mkCheck false none with idx := g.insert_order + 7 } := by
  unfold init
  simp only
  iterate 26 refine (find_register_other _ _ _ name "OwnBook" hn (by decide)).trans ?_
  exact find_register_same _ _ _ name "OwnBook" hn (by decide)

/-- C7: after `init`, whatever the map held before, the options map contains the three
book settings: "Book File" of type string with default "book.bin", "OwnBook" of
type check with default "false", and "Best Book Move" of type check with default
"false"; each is found under every spelling of its name that differs only in
letter case, and its current value is its default. -/
theorem init_book_settings (Is64Bit : Bool) (hc : Nat) (g : Globals) (name : String) :
    (name.data.map tolower = "Book File".data.map tolower →
      ∃ o, find (init Is64Bit hc g).options name = some o ∧ o.type = "string" ∧
        o.defaultValue = "book.bin" ∧ o.currentValue = "book.bin") ∧
    (name.data.map tolower = "OwnBook".data.map tolower →
      ∃ o, find (init Is64Bit hc g).options name = some o ∧ o.type = "check" ∧
        o.defaultValue = "false" ∧ o.currentValue = "false") ∧
    (name.data.map tolower = "Best Book Move".data.map tolower →
      ∃ o, find (init Is64Bit hc g).options name = some o ∧ o.type = "check" ∧
        o.defaultValue = "false" ∧ o.currentValue = "false") :=
  ⟨fun hn => ⟨_, init_find_book_file Is64Bit hc g name hn, rfl, rfl, rfl⟩,
    fun hn => ⟨_, init_find_own_book Is64Bit hc g name hn, rfl, rfl, rfl⟩,
    fun hn => ⟨_, init_find_best_book_move Is64Bit hc g name hn, rfl, rfl, rfl⟩⟩

/-- From the empty map, the book file setting is found under the spelling
`BOOK file`. -/
theorem init_book_settings_witness :
    "BOOK file".data.map tolower = "Book File".data.map tolower ∧
    ∃ o, find (init true 8 Globals.start).options "BOOK file" = some o ∧ o.type = "string" ∧
      o.defaultValue = "book.bin" ∧ o.currentValue = "book.bin" :=
  ⟨by decide, (init_book_settings true 8 Globals.start "BOOK file").1 (by decide)⟩

end UCI

namespace UCI

/-! ## `Option::operator=` -/

/-- When `stoi` parses the value, the `if` of `operator=` is taken exactly under the
rejection condition. -/
theorem rejects_of_parsed (o : UciOption) (v : String)
    (hp : o.type = "spin" → v ≠ "" → ∃ n, stoi v = Except.ok n) :
    ∃ r, rejects o v = Except.ok r ∧ (r = true ↔ RejectCondition o v) := by
  unfold rejects RejectCondition
  by_cases h1 : o.type ≠ "button" ∧ v = ""
  · exact ⟨true, by rw [if_pos h1], by simp [h1]⟩
  · rw [if_neg h1]
    by_cases h2 : o.type = "check" ∧ v ≠ "true" ∧ v ≠ "false"
    · exact ⟨true, by rw [if_pos h2], by simp [h2]⟩
    · rw [if_neg h2]
      by_cases h3 : o.type = "spin"
      · have hv : v ≠ "" := by
          intro hv
          apply h1
          refine ⟨?_, hv⟩
          rw [h3]; decide
        obtain ⟨n, hn⟩ := hp h3 hv
        rw [if_pos h3, hn]
        simp only
        by_cases hmin : n < o.min
        · refine ⟨true, by rw [if_pos hmin], ?_⟩
          simp only [true_iff]
          exact Or.inr (Or.inr ⟨h3, n, rfl, Or.inl hmin⟩)
        · rw [if_neg hmin]
          refine ⟨decide (o.max < n), rfl, ?_⟩
          simp only [decide_eq_true_eq]
          constructor
          · intro hmax
            exact Or.inr (Or.inr ⟨h3, n, rfl, Or.inr hmax⟩)
          · rintro (h | h | ⟨_, m, hm, hlt⟩)
            · exact absurd h h1
            · exact absurd h h2
            · simp only [Except.ok.injEq] at hm
              subst hm
              rcases hlt with h | h
              · exact absurd h hmin
              · exact h
      · rw [if_neg h3]
        refine ⟨false, rfl, ?_⟩
        simp only [Bool.false_eq_true, false_iff]
        rintro (h | h | ⟨h, _⟩)
        · exact h1 h
        · exact h2 h
        · exact h3 h

/-- On a non-empty value that `stoi` cannot parse, `operator=` of a spin option
throws what `stoi` throws. -/
theorem assign_throws (o : UciOption) (v : String) (e : Exn)
    (ht : o.type = "spin") (hv : v ≠ "") (he : stoi v = Except.error e) :
    assign o v = Except.error e := by
  have h0 : o.type ≠ "" := by rw [ht]; decide
  have h1 : ¬ (o.type ≠ "button" ∧ v = "") := fun h => hv h.2
  have h2 : ¬ (o.type = "check" ∧ v ≠ "true" ∧ v ≠ "false") := by
    rw [ht]; intro h; exact absurd h.1 (by decide)
  unfold assign rejects
  rw [if_neg h0, if_neg h1, if_neg h2, if_pos ht, he]

/-- C8 as stated fails: for the spin option `Option(24, -100, 100)` and the value
"abc", none of the three rejection conditions holds (no integer is parsed from
"abc"), yet the current value does not become "abc": `operator=` throws
`invalid_argument` out of `stoi`. -/
theorem assign_unparsable_not_accepted :
    ¬ RejectCondition (mkSpin 24 (-100) 100 none) "abc" ∧
    assign (mkSpin 24 (-100) 100 none) "abc" = Except.error Exn.invalid_argument ∧
    ¬ ∃ r, assign (mkSpin 24 (-100) 100 none) "abc" = Except.ok r := by
  have hs : stoi "abc" = Except.error Exn.invalid_argument := rfl
  have ha : assign (mkSpin 24 (-100) 100 none) "abc" = Except.error Exn.invalid_argument :=
    rfl
  refine ⟨?_, ha, ?_⟩
  · rintro (⟨_, h⟩ | ⟨h, _⟩ | ⟨_, n, hn, _⟩)
    · exact absurd h (by decide)
    · exact absurd h (by decide)
    · rw [hs] at hn; exact Except.noConfusion hn
  · rintro ⟨r, hr⟩
    rw [ha] at hr
    exact Except.noConfusion hr

/-- The outcome of `operator=` on a value that `stoi` parses (when it is consulted). -/
theorem assign_of_parsed (o : UciOption) (v : String) (ht : o.type ≠ "")
    (hp : o.type = "spin" → v ≠ "" → ∃ n, stoi v = Except.ok n) :
    (rejects o v = Except.ok true ↔ RejectCondition o v) ∧
    (RejectCondition o v → assign o v = Except.ok (o, [])) ∧
    (¬ RejectCondition o v →
      assign o v = Except.ok (accepted o v,
        match o.on_change with
        | some f => [(f, accepted o v)]
        | none => [])) := by
  obtain ⟨r, hr, hiff⟩ := rejects_of_parsed o v hp
  refine ⟨?_, ?_, ?_⟩
  · rw [hr, ← hiff]
    simp only [Except.ok.injEq]
  · intro hc
    have hrt : r = true := hiff.mpr hc
    subst hrt
    unfold assign
    rw [if_neg ht, hr]
  · intro hc
    have hrf : r = false := by
      cases r with
      | true => exact absurd (hiff.mp rfl) hc
      | false => rfl
    subst hrf
    unfold assign
    rw [if_neg ht, hr]
    cases o.on_change <;> rfl

/-- The fields of the option after an accepted assignment. -/
theorem accepted_fields (o : UciOption) (v : String) :
    (o.type ≠ "button" → (accepted o v).currentValue = v) ∧
    (o.type = "button" → accepted o v = o) ∧
    (accepted o v).defaultValue = o.defaultValue ∧ (accepted o v).type = o.type ∧
    (accepted o v).min = o.min ∧ (accepted o v).max = o.max ∧
    (accepted o v).idx = o.idx ∧ (accepted o v).on_change = o.on_change := by
  refine ⟨?_, ?_, ?_⟩
  · intro hb
    unfold accepted
    rw [if_pos hb]
  · intro hb
    unfold accepted
    rw [if_neg (by simp [hb])]
  · unfold accepted
    by_cases hb : o.type ≠ "button"
    · rw [if_pos hb]; exact ⟨rfl, rfl, rfl, rfl, rfl, rfl⟩
    · rw [if_neg hb]; exact ⟨rfl, rfl, rfl, rfl, rfl, rfl⟩

/-- C8, amended: for an option with a non-empty type (which `operator=` asserts and
every constructor provides): (1) if `stoi` parses the value whenever the option is
a spin and the value is not empty, then `operator=` takes its early return exactly
under the rejection condition (type not button and value empty, or type check and
value neither "true" nor "false", or type spin and the parsed integer below `min`
or above `max`); under it the option is returned with every field unchanged and
`on_change` is not called; in every other case the current value becomes the given
string (for a button it stays as it is), no other field changes, and `on_change`,
when set, is called exactly once, with the updated option; (2) if the option is a
spin and `stoi` throws on the non-empty value, `operator=` throws the same
exception, so no field changes and `on_change` is not called. -/
theorem assign_spec (o : UciOption) (v : String) (ht : o.type ≠ "") :
    ((o.type = "spin" → v ≠ "" → ∃ n, stoi v = Except.ok n) →
      (rejects o v = Except.ok true ↔ RejectCondition o v) ∧
      (RejectCondition o v → assign o v = Except.ok (o, [])) ∧
      (¬ RejectCondition o v →
        assign o v = Except.ok (accepted o v,
          match o.on_change with
          | some f => [(f, accepted o v)]
          | none => []) ∧
        (o.type ≠ "button" → (accepted o v).currentValue = v) ∧
        (o.type = "button" → accepted o v = o) ∧
        (accepted o v).defaultValue = o.defaultValue ∧ (accepted o v).type = o.type ∧
        (accepted o v).min = o.min ∧ (accepted o v).max = o.max ∧
        (accepted o v).idx = o.idx ∧ (accepted o v).on_change = o.on_change)) ∧
    (∀ e, o.type = "spin" → v ≠ "" → stoi v = Except.error e →
      assign o v = Except.error e) := by
  refine ⟨?_, fun e hs hv he => assign_throws o v e hs hv he⟩
  intro hp
  obtain ⟨h1, h2, h3⟩ := assign_of_parsed o v ht hp
  exact ⟨h1, h2, fun hc => ⟨h3 hc, accepted_fields o v⟩⟩

/-- The spin option `Option(24, -100, 100, on_threads)`: "101" is rejected, "17xyz" is
parsed as 17 and accepted as it is written. -/
theorem assign_spec_witness :
    ((mkSpin 24 (-100) 100 (some Handler.on_threads)).type ≠ "" ∧
      stoi "101" = Except.ok 101 ∧ stoi "17xyz" = Except.ok 17) ∧
    assign (mkSpin 24 (-100) 100 (some Handler.on_threads)) "101"
      = Except.ok (mkSpin 24 (-100) 100 (some Handler.on_threads), []) ∧
    assign (mkSpin 24 (-100) 100 (some Handler.on_threads)) "17xyz"
      = Except.ok (accepted (mkSpin 24 (-100) 100 (some Handler.on_threads)) "17xyz",
          [(Handler.on_threads,
            accepted (mkSpin 24 (-100) 100 (some Handler.on_threads)) "17xyz")]) :=
  ⟨⟨by decide, rfl, rfl⟩,
    ((assign_spec (mkSpin 24 (-100) 100 (some Handler.on_threads)) "101" (by decide)).1
      (fun _ _ => ⟨101, rfl⟩)).2.1
      (Or.inr (Or.inr ⟨by decide, 101, rfl, Or.inr (by decide)⟩)),
    rfl⟩

end UCI

namespace UCI

/-! ## `init`: current and default values -/

/-- An entry of the map after a write is an old entry or carries a written option. -/
theorem mem_update (k : String) (f : UciOption → UciOption) :
    ∀ (m : OptionsMap) (p : String × UciOption), p ∈ update m k f →
      p ∈ m ∨ ∃ v, p.2 = f v := by
  intro m
  induction m with
  | nil =>
    intro p hp
    simp only [update, List.mem_singleton] at hp
    exact Or.inr ⟨mkButton none, by rw [hp]⟩
  | cons q rest ih =>
    obtain ⟨e, v⟩ := q
    intro p hp
    simp only [update] at hp
    by_cases hek : CaseInsensitiveLess e k = true
    · rw [if_pos hek] at hp
      rcases List.mem_cons.mp hp with h | h
      · exact Or.inl (by rw [h]; exact List.mem_cons_self _ _)
      · rcases ih p h with h2 | h2
        · exact Or.inl (List.mem_cons_of_mem _ h2)
        · exact Or.inr h2
    · rw [if_neg hek] at hp
      by_cases hke : CaseInsensitiveLess k e = true
      · rw [if_pos hke] at hp
        rcases List.mem_cons.mp hp with h | h
        · exact Or.inr ⟨mkButton none, by rw [h]⟩
        · exact Or.inl h
      · rw [if_neg hke] at hp
        rcases List.mem_cons.mp hp with h | h
        · exact Or.inr ⟨v, by rw [h]⟩
        · exact Or.inl (List.mem_cons_of_mem _ h)

/-- A property of options that ignores `idx` and holds for the registered option and
for every entry of the map holds for every entry after the registration. -/
theorem register_forall (P : UciOption → Prop) (k : String) (opt : UciOption) (g : Globals)
    (hidx : ∀ (o : UciOption) (i : Nat), P o → P { o with idx := i })
    (hopt : P opt) (hg : ∀ p ∈ g.options, P p.2) :
    ∀ p ∈ (register k opt g).options, P p.2 := by
  intro p hp
  unfold register at hp
  simp only at hp
  rcases mem_update k _ g.options p hp with h | ⟨v, h⟩
  · exact hg p h
  · rw [h]
    exact hidx opt g.insert_order hopt

theorem init_find_analysis_ct (Is64Bit : Bool) (hc : Nat) (g : Globals) (name : String)
    (hn : name.data.map tolower = "Analysis_CT".data.map tolower) :
    find (init Is64Bit hc g).options name
      = some { mkCombo "Both var Off var White var Black var Both" "Both" none with
          idx := g.insert_order + 4 } := by
  unfold init
  simp only
  iterate 29 refine (find_register_other _ _ _ name "Analysis_CT" hn (by decide)).trans ?_
  exact find_register_same _ _ _ name "Analysis_CT" hn (by decide)

/-- What `find` returns is the option of an entry of the map. -/
theorem find_mem : ∀ (m : OptionsMap) (name : String) (o : UciOption),
    find m name = some o → ∃ k, (k, o) ∈ m := by
  intro m
  induction m with
  | nil => intro name o h; simp [find] at h
  | cons q rest ih =>
    obtain ⟨e, v⟩ := q
    intro name o h
    simp only [find] at h
    by_cases h1 : CaseInsensitiveLess e name = true
    · rw [if_pos h1] at h
      obtain ⟨k, hk⟩ := ih name o h
      exact ⟨k, List.mem_cons_of_mem _ hk⟩
    · rw [if_neg h1] at h
      by_cases h2 : CaseInsensitiveLess name e = true
      · rw [if_pos h2] at h; simp at h
      · rw [if_neg h2] at h
        simp only [Option.some.injEq] at h
        exact ⟨e, by rw [h]; exact List.mem_cons_self _ _⟩

/-- C10 as stated fails: after `init` on the empty map (64-bit build, one hardware
thread) not every option of the map whose type is not button has its current value
equal to its default value: the option "Analysis_CT" has type combo, current value
"Both" and default value "Both var Off var White var Black var Both". -/
theorem init_combo_current_ne_default :
    ¬ (∀ p ∈ (init true 1 Globals.start).options, p.2.type ≠ "button" →
      p.2.currentValue = p.2.defaultValue) := by
  intro h
  obtain ⟨k, hk⟩ := find_mem _ _ _
    (init_find_analysis_ct true 1 Globals.start "Analysis_CT" rfl)
  have hne : ("combo" : String) ≠ "button" := by decide
  have hvals : ("Both" : String) ≠ "Both var Off var White var Black var Both" := by decide
  exact hvals (h _ hk hne)

/-- C10, amended: after `init`, every option in the map whose type is neither button
nor combo has its current value equal to its default value, provided this held for
the entries the map had before (as it does for the empty map); the combo option
"Analysis_CT" has the current value "Both" and the default value
"Both var Off var White var Black var Both". -/
theorem init_current_eq_default (Is64Bit : Bool) (hc : Nat) (g : Globals)
    (hg : ∀ p ∈ g.options, p.2.type ≠ "button" → p.2.type ≠ "combo" →
      p.2.currentValue = p.2.defaultValue) :
    (∀ p ∈ (init Is64Bit hc g).options, p.2.type ≠ "button" → p.2.type ≠ "combo" →
      p.2.currentValue = p.2.defaultValue) ∧
    (∃ o, find (init Is64Bit hc g).options "Analysis_CT" = some o ∧ o.type = "combo" ∧
      o.currentValue = "Both" ∧
      o.defaultValue = "Both var Off var White var Black var Both") := by
  refine ⟨?_, ⟨_, init_find_analysis_ct Is64Bit hc g "Analysis_CT" rfl, rfl, rfl, rfl⟩⟩
  unfold init
  simp only
  iterate 34
    refine register_forall
      (fun o => o.type ≠ "button" → o.type ≠ "combo" → o.currentValue = o.defaultValue)
      _ _ _ (fun o i h => h) ?_ ?_
    · first
        | (intro _ _; rfl)
        | (intro _ h; exact absurd rfl h)
  exact hg

/-- From the empty map: every registered option that is neither a button nor a combo
starts at its default. -/
theorem init_current_eq_default_witness :
    (∀ p ∈ Globals.start.options, p.2.type ≠ "button" → p.2.type ≠ "combo" →
      p.2.currentValue = p.2.defaultValue) ∧
    (∀ p ∈ (init true 8 Globals.start).options, p.2.type ≠ "button" → p.2.type ≠ "combo" →
      p.2.currentValue = p.2.defaultValue) ∧
    (∃ o, find (init true 8 Globals.start).options "Analysis_CT" = some o ∧
      o.type = "combo" ∧ o.currentValue = "Both" ∧
      o.defaultValue = "Both var Off var White var Black var Both") :=
  ⟨fun _ hp => absurd hp (List.not_mem_nil _),
    init_current_eq_default true 8 Globals.start
      (fun _ hp => absurd hp (List.not_mem_nil _))⟩

end UCI

namespace UCI

/-! ## The printer: entry format -/

/-- The writes for one entry append the entry format to the stream. -/
theorem writeEntry_eq (os name : String) (o : UciOption) :
    writeEntry os name o = os ++ entryFormat name o := by
  unfold writeEntry entryFormat
  by_cases hb : o.type ≠ "button"
  · by_cases hs : o.type = "spin"
    · simp only [if_pos hb, if_pos hs, String.append_assoc]
    · simp only [if_pos hb, if_neg hs, String.append_assoc, String.append_empty]
  · by_cases hs : o.type = "spin"
    · simp only [if_neg hb, if_pos hs, String.append_assoc, String.empty_append]
    · simp only [if_neg hb, if_neg hs, String.append_assoc, String.append_empty]

theorem printLoop_eq (om : OptionsMap) : ∀ (idxs : List Nat) (os : String),
    idxs.foldl
        (fun acc idx =>
          match firstWithIdx om idx with
          | some it => writeEntry acc it.1 it.2
          | none => acc)
        os
      = os ++ entriesText (idxs.filterMap (firstWithIdx om)) := by
  intro idxs
  induction idxs with
  | nil => intro os; simp [entriesText]
  | cons i rest ih =>
    intro os
    rw [List.foldl_cons, ih]
    cases hf : firstWithIdx om i with
    | none => simp [List.filterMap_cons, hf]
    | some it =>
      simp only [List.filterMap_cons, hf, entriesText, writeEntry_eq, String.append_assoc]

/-- The stream after the printer is the stream before followed by the text of the
printed entries. -/
theorem printOptions_eq (os : String) (om : OptionsMap) :
    printOptions os om = os ++ entriesText (printedEntries om) :=
  printLoop_eq om (List.range om.length) os

theorem firstWithIdx_mem (om : OptionsMap) (idx : Nat) (p : String × UciOption)
    (h : firstWithIdx om idx = some p) : p ∈ om ∧ p.2.idx = idx := by
  unfold firstWithIdx at h
  refine ⟨List.mem_of_find?_eq_some h, ?_⟩
  have := List.find?_some h
  simpa using this

theorem printedEntries_mem (om : OptionsMap) (p : String × UciOption)
    (h : p ∈ printedEntries om) : p ∈ om := by
  unfold printedEntries at h
  rw [List.mem_filterMap] at h
  obtain ⟨i, _, hi⟩ := h
  exact (firstWithIdx_mem om i p hi).1

/-- C13: the printer's entry format follows the option type. For every stream and
map, the printer appends to the stream the entries it prints (each an entry of the
map), one after the other, and each entry is "\noption name <name> type <type>",
followed by " default <defaultValue>" exactly when the type is not button,
followed by " min <min> max <max>" exactly when the type is spin: a button entry
ends after the type, a spin entry has the default and then the bounds, every other
entry has the default only. -/
theorem printOptions_entry_format (os : String) (om : OptionsMap) :
    printOptions os om = os ++ entriesText (printedEntries om) ∧
    (∀ p ∈ printedEntries om, p ∈ om) ∧
    (∀ (acc name : String) (o : UciOption),
      writeEntry acc name o = acc ++ entryFormat name o) ∧
    (∀ (name : String) (o : UciOption), o.type = "button" →
      entryFormat name o = "\noption name " ++ name ++ " type " ++ o.type) ∧
    (∀ (name : String) (o : UciOption), o.type = "spin" →
      entryFormat name o = "\noption name " ++ name ++ " type " ++ o.type
        ++ " default " ++ o.defaultValue
        ++ " min " ++ to_string o.min ++ " max " ++ to_string o.max) ∧
    (∀ (name : String) (o : UciOption), o.type ≠ "button" → o.type ≠ "spin" →
      entryFormat name o = "\noption name " ++ name ++ " type " ++ o.type
        ++ " default " ++ o.defaultValue) := by
  refine ⟨printOptions_eq os om, printedEntries_mem om, writeEntry_eq, ?_, ?_, ?_⟩
  · intro name o hb
    have hs : o.type ≠ "spin" := by rw [hb]; decide
    have hnb : ¬ (o.type ≠ "button") := fun h => h hb
    unfold entryFormat
    simp only [if_neg hnb, if_neg hs, String.append_empty]
  · intro name o hs
    have hb : o.type ≠ "button" := by rw [hs]; decide
    unfold entryFormat
    simp only [if_pos hb, if_pos hs, String.append_assoc]
  · intro name o hb hs
    unfold entryFormat
    simp only [if_pos hb, if_neg hs, String.append_assoc, String.append_empty]

/-- A map with a button, a spin and a check option, printed to an empty stream. -/
theorem printOptions_entry_format_witness :
    printOptions ""
        (registerAll
          [("Clear_Hash", mkButton (some Handler.on_clear_hash)),
           ("Contempt", mkSpin 24 (-100) 100 none),
           ("OwnBook", mkCheck false none)] Globals.start).options
      = "\noption name Clear_Hash type button"
        ++ "\noption name Contempt type spin default 24 min -100 max 100"
        ++ "\noption name OwnBook type check default false" ∧
    printOptions ""
        (registerAll
          [("Clear_Hash", mkButton (some Handler.on_clear_hash)),
           ("Contempt", mkSpin 24 (-100) 100 none),
           ("OwnBook", mkCheck false none)] Globals.start).options
      = "" ++ entriesText (printedEntries (registerAll
          [("Clear_Hash", mkButton (some Handler.on_clear_hash)),
           ("Contempt", mkSpin 24 (-100) 100 none),
           ("OwnBook", mkCheck false none)] Globals.start).options) :=
  ⟨by decide, (printOptions_entry_format "" _).1⟩

end UCI

namespace UCI

/-! ## The printer: registration order -/

/-- A write under a name that no key of the map is equivalent to adds one entry and
keeps the others. -/
theorem update_perm_of_new (k : String) (f : UciOption → UciOption) :
    ∀ (m : OptionsMap),
      (∀ p ∈ m, CaseInsensitiveLess p.1 k = true ∨ CaseInsensitiveLess k p.1 = true) →
      (update m k f).Perm ((k, f (mkButton none)) :: m) := by
  intro m
  induction m with
  | nil => intro _; exact List.Perm.refl _
  | cons q rest ih =>
    obtain ⟨e, v⟩ := q
    intro hnew
    simp only [update]
    by_cases hek : CaseInsensitiveLess e k = true
    · rw [if_pos hek]
      have h1 := ih (fun p hp => hnew p (List.mem_cons_of_mem _ hp))
      exact (List.Perm.cons (e, v) h1).trans (List.Perm.swap _ _ _)
    · rw [if_neg hek]
      have hke : CaseInsensitiveLess k e = true := by
        rcases hnew (e, v) (List.mem_cons_self _ _) with h | h
        · exact absurd h hek
        · exact h
      rw [if_pos hke]

theorem stamp_append : ∀ (L M : List (String × UciOption)) (i : Nat),
    stamp i (L ++ M) = stamp i L ++ stamp (i + L.length) M := by
  intro L
  induction L with
  | nil => intro M i; simp [stamp]
  | cons r rs ih =>
    intro M i
    have hlen : i + 1 + rs.length = i + (rs.length + 1) := by omega
    show stamp i (r :: (rs ++ M)) = stamp i (r :: rs) ++ stamp (i + (rs.length + 1)) M
    rw [stamp, stamp, ih, hlen]
    rfl

theorem stamp_length : ∀ (L : List (String × UciOption)) (i : Nat),
    (stamp i L).length = L.length := by
  intro L
  induction L with
  | nil => intro i; rfl
  | cons r rs ih => intro i; simp [stamp, ih]

theorem stamp_getElem? : ∀ (L : List (String × UciOption)) (i j : Nat),
    (stamp i L)[j]? = (L[j]?).map (fun r => (r.1, { r.2 with idx := i + j })) := by
  intro L
  induction L with
  | nil => intro i j; simp [stamp]
  | cons r rs ih =>
    intro i j
    cases j with
    | zero => simp [stamp]
    | succ j =>
      simp only [stamp, List.getElem?_cons_succ, ih]
      have : i + 1 + j = i + (j + 1) := by omega
      rw [this]

theorem mem_stamp (L : List (String × UciOption)) (i : Nat) (p : String × UciOption)
    (hp : p ∈ stamp i L) :
    ∃ j r, L[j]? = some r ∧ (stamp i L)[j]? = some p ∧ p.1 = r.1 ∧ p.2.idx = i + j := by
  obtain ⟨j, hj⟩ := List.mem_iff_getElem?.mp hp
  have h := stamp_getElem? L i j
  rw [hj] at h
  cases hr : L[j]? with
  | none => rw [hr] at h; simp at h
  | some r =>
    rw [hr] at h
    simp only [Option.map_some', Option.some.injEq] at h
    exact ⟨j, r, hr, hj, by rw [h], by rw [h]⟩

theorem entriesText_stamp : ∀ (L : List (String × UciOption)) (i : Nat),
    entriesText (stamp i L) = entriesText L := by
  intro L
  induction L with
  | nil => intro i; rfl
  | cons r rs ih =>
    intro i
    simp only [stamp, entriesText, ih]
    rfl

/-- Registrations under pairwise distinct names, starting on a map that holds the
earlier registrations `L` with their stamps: the map ends up holding all of them. -/
theorem registerAll_perm : ∀ (regs L : List (String × UciOption)) (g : Globals),
    g.insert_order = L.length → g.options.Perm (stamp 0 L) →
    DistinctNames ((L ++ regs).map Prod.fst) →
    (registerAll regs g).options.Perm (stamp 0 (L ++ regs)) ∧
    (registerAll regs g).insert_order = (L ++ regs).length := by
  intro regs
  induction regs with
  | nil =>
    intro L g hio hperm _
    simp only [registerAll, List.foldl_nil, List.append_nil]
    exact ⟨hperm, hio⟩
  | cons r rs ih =>
    intro L g hio hperm hnames
    have hsplit : L ++ r :: rs = (L ++ [r]) ++ rs := by simp
    have hstep : registerAll (r :: rs) g = registerAll rs (register r.1 r.2 g) := rfl
    rw [hstep, hsplit]
    apply ih
    · rw [register_insert_order, hio]; simp
    · have hnew : ∀ p ∈ g.options,
          CaseInsensitiveLess p.1 r.1 = true ∨ CaseInsensitiveLess r.1 p.1 = true := by
        intro p hp
        obtain ⟨j, r2, hr2, _, hname, _⟩ := mem_stamp L 0 p (hperm.mem_iff.mp hp)
        have hmem : r2 ∈ L := List.getElem?_mem hr2
        unfold DistinctNames at hnames
        rw [List.map_append, List.pairwise_append] at hnames
        rw [hname]
        exact hnames.2.2 r2.1 (List.mem_map_of_mem _ hmem) r.1
          (by simp)
      have h1 := update_perm_of_new r.1 (fun self => shiftIn g.insert_order self r.2)
        g.options hnew
      unfold register
      simp only
      refine h1.trans ?_
      rw [stamp_append]
      simp only [stamp, Nat.zero_add, shiftIn, hio]
      exact ((List.Perm.cons _ hperm).trans (List.perm_append_singleton _ _).symm)
    · rw [← hsplit]; exact hnames

/-- In a map that holds stamped registrations, the entry the printer finds for an
`idx` below the number of registrations is the registration with that stamp. -/
theorem firstWithIdx_of_perm (om : OptionsMap) (L : List (String × UciOption))
    (hperm : om.Perm (stamp 0 L)) (j : Nat) (hj : j < L.length) :
    firstWithIdx om j = (stamp 0 L)[j]? := by
  have hlen : j < (stamp 0 L).length := by rw [stamp_length]; exact hj
  have hex : (stamp 0 L)[j]? = some ((stamp 0 L)[j]) := List.getElem?_eq_getElem hlen
  have hidx : ((stamp 0 L)[j]).2.idx = j := by
    obtain ⟨k, r, _, hk, _, hi⟩ := mem_stamp L 0 _ (List.getElem_mem hlen)
    have hk2 := stamp_getElem? L 0 j
    rw [hex] at hk2
    cases hr : L[j]? with
    | none => rw [hr] at hk2; simp at hk2
    | some r2 =>
      rw [hr] at hk2
      simp only [Option.map_some', Option.some.injEq] at hk2
      rw [hk2]; simp
  cases hf : firstWithIdx om j with
  | none =>
    unfold firstWithIdx at hf
    rw [List.find?_eq_none] at hf
    have := hf _ (hperm.mem_iff.mpr (List.getElem_mem hlen))
    simp [hidx] at this
  | some p =>
    obtain ⟨hmem, hpi⟩ := firstWithIdx_mem om j p hf
    obtain ⟨k, r, _, hk, _, hi⟩ := mem_stamp L 0 p (hperm.mem_iff.mp hmem)
    have hkj : k = j := by omega
    rw [hkj] at hk
    rw [hk]

/-- Collecting `f` over the indices of a list gives the list back when `f` reads
the list. -/
theorem filterMap_range_eq {α : Type} (f : Nat → Option α) : ∀ (T : List α),
    (∀ j, j < T.length → f j = T[j]?) → (List.range T.length).filterMap f = T := by
  intro T
  induction T using List.reverseRecOn with
  | nil => intro _; rfl
  | append_singleton T a ih =>
    intro h
    rw [List.length_append, List.length_singleton, List.range_succ, List.filterMap_append]
    have h1 : (List.range T.length).filterMap f = T := by
      apply ih
      intro j hj
      rw [h j (by rw [List.length_append]; omega), List.getElem?_append_left hj]
    have h2 : f T.length = some a := by
      rw [h T.length (by rw [List.length_append, List.length_singleton]; omega)]
      simp
    rw [h1]
    simp [List.filterMap_cons, h2]

/-- The entries printed for a map populated from scratch under distinct names are
the registrations, in registration order. -/
theorem printedEntries_registerAll (regs : List (String × UciOption))
    (hnames : DistinctNames (regs.map Prod.fst)) :
    printedEntries (registerAll regs Globals.start).options = stamp 0 regs ∧
    (registerAll regs Globals.start).options.Perm (stamp 0 regs) := by
  have h := registerAll_perm regs [] Globals.start rfl (List.Perm.refl _)
    (by simpa using hnames)
  simp only [List.nil_append] at h
  refine ⟨?_, h.1⟩
  unfold printedEntries
  have hlen : (registerAll regs Globals.start).options.length = (stamp 0 regs).length :=
    h.1.length_eq
  rw [hlen]
  apply filterMap_range_eq
  intro j hj
  rw [stamp_length] at hj
  exact firstWithIdx_of_perm _ regs h.1 j hj

end UCI

namespace UCI

theorem init_eq_registerAll (Is64Bit : Bool) (hc : Nat) (g : Globals) :
    init Is64Bit hc g = registerAll (initRegistrations Is64Bit hc) g := rfl

theorem initRegistrations_distinct (Is64Bit : Bool) (hc : Nat) :
    DistinctNames ((initRegistrations Is64Bit hc).map Prod.fst) := by
  have hnames : (initRegistrations Is64Bit hc).map Prod.fst
      = (initRegistrations true 1).map Prod.fst := rfl
  rw [hnames]
  decide

/-- After `init` on the empty map the printer writes the 34 options of `init`, each
once, in source order. -/
theorem printOptions_init (Is64Bit : Bool) (hc : Nat) (os : String) :
    printOptions os (init Is64Bit hc Globals.start).options
      = os ++ entriesText (initRegistrations Is64Bit hc) := by
  rw [printOptions_eq, init_eq_registerAll,
    (printedEntries_registerAll _ (initRegistrations_distinct Is64Bit hc)).1,
    entriesText_stamp]

/-- C11 as stated fails: the map populated by registering the name "Hash" twice
through the registration operator holds one option (with `idx` 1, the second
registration time), and the printer, which looks for `idx` 0 only, writes no entry
for it. -/
theorem printOptions_reregistered :
    (registerAll [("Hash", mkSpin 16 1 2048 none), ("Hash", mkSpin 32 1 2048 none)]
      Globals.start).options
      = [("Hash", { mkSpin 32 1 2048 none with idx := 1 })] ∧
    printedEntries (registerAll
      [("Hash", mkSpin 16 1 2048 none), ("Hash", mkSpin 32 1 2048 none)]
      Globals.start).options = [] ∧
    printOptions "" (registerAll
      [("Hash", mkSpin 16 1 2048 none), ("Hash", mkSpin 32 1 2048 none)]
      Globals.start).options = "" := by
  refine ⟨by decide, by decide, by decide⟩

/-- C11, amended: for every map populated from the empty map and a zero
`insert_order` through the registration operator under names that are pairwise
distinct even when letter case is ignored (as `init` does), the printer writes
exactly one entry for each option in the map (the printed entries are a
permutation of the entries of the map), ordered by increasing registration time:
the entry written in place `j` is the `j`-th registration and has `idx = j`, so
the stream receives the entries of the registrations in registration order. -/
theorem printOptions_registration_order (regs : List (String × UciOption)) (os : String)
    (hnames : DistinctNames (regs.map Prod.fst)) :
    (printedEntries (registerAll regs Globals.start).options).Perm
      (registerAll regs Globals.start).options ∧
    printedEntries (registerAll regs Globals.start).options = stamp 0 regs ∧
    (∀ (j : Nat) (p : String × UciOption),
      (printedEntries (registerAll regs Globals.start).options)[j]? = some p →
      p.2.idx = j ∧ ∃ r, regs[j]? = some r ∧ p = (r.1, { r.2 with idx := j })) ∧
    printOptions os (registerAll regs Globals.start).options = os ++ entriesText regs := by
  obtain ⟨hprinted, hperm⟩ := printedEntries_registerAll regs hnames
  refine ⟨?_, hprinted, ?_, ?_⟩
  · rw [hprinted]; exact hperm.symm
  · intro j p hp
    rw [hprinted, stamp_getElem?] at hp
    cases hr : regs[j]? with
    | none => rw [hr] at hp; simp at hp
    | some r =>
      rw [hr] at hp
      simp only [Option.map_some', Option.some.injEq, Nat.zero_add] at hp
      exact ⟨by rw [← hp], r, rfl, hp.symm⟩
  · rw [printOptions_eq, hprinted, entriesText_stamp]

/-- The registrations of `init` have pairwise distinct names, and the printer writes
them in source order. -/
theorem printOptions_registration_order_witness :
    DistinctNames ((initRegistrations true 8).map Prod.fst) ∧
    printOptions "" (registerAll (initRegistrations true 8) Globals.start).options
      = "" ++ entriesText (initRegistrations true 8) :=
  ⟨by decide,
    (printOptions_registration_order (initRegistrations true 8) "" (by decide)).2.2.2⟩

end UCI

namespace UCI

/-! ## `to_string` and `stoi` -/

/-- What `stoi` needs to know about a decimal digit character. -/
theorem digitChar_facts (k : Nat) (hk : k < 10) :
    (Nat.digitChar k).isDigit = true ∧ isspace (Nat.digitChar k) = false ∧
    (Nat.digitChar k).toNat - 48 = k ∧
    (∀ rest, stoi_sign (Nat.digitChar k :: rest) = (false, Nat.digitChar k :: rest)) := by
  interval_cases k <;> exact ⟨by decide, by decide, by decide, fun _ => rfl⟩

theorem stoi_digits_append (L : List Char) (c : Char) :
    stoi_digits (L ++ [c]) = 10 * stoi_digits L + (c.toNat - 48) := by
  unfold stoi_digits
  rw [List.foldl_append]
  rfl

/-- The digits `Nat.toDigitsCore` puts in front of its accumulator are decimal digit
characters whose value, read most significant first, is the number. -/
theorem toDigitsCore_spec : ∀ (fuel n : Nat) (ds : List Char), n < fuel →
    ∃ L, Nat.toDigitsCore 10 fuel n ds = L ++ ds ∧ L ≠ [] ∧
      (∀ c ∈ L, ∃ k, k < 10 ∧ c = Nat.digitChar k) ∧ stoi_digits L = n := by
  intro fuel
  induction fuel with
  | zero => intro n ds h; omega
  | succ fuel ih =>
    intro n ds h
    have hmod : n % 10 < 10 := Nat.mod_lt _ (by decide)
    simp only [Nat.toDigitsCore]
    by_cases h0 : n / 10 = 0
    · rw [if_pos h0]
      refine ⟨[Nat.digitChar (n % 10)], rfl, by simp, ?_, ?_⟩
      · intro c hc
        rw [List.mem_singleton] at hc
        exact ⟨n % 10, hmod, hc⟩
      · have := (digitChar_facts (n % 10) hmod).2.2.1
        simp only [stoi_digits, List.foldl_cons, List.foldl_nil]
        omega
    · rw [if_neg h0]
      obtain ⟨L, hL, _, hdig, hval⟩ := ih (n / 10) (Nat.digitChar (n % 10) :: ds) (by omega)
      refine ⟨L ++ [Nat.digitChar (n % 10)], by rw [hL]; simp, by simp, ?_, ?_⟩
      · intro c hc
        rcases List.mem_append.mp hc with h1 | h1
        · exact hdig c h1
        · rw [List.mem_singleton] at h1
          exact ⟨n % 10, hmod, h1⟩
      · rw [stoi_digits_append, hval, (digitChar_facts (n % 10) hmod).2.2.1]
        omega

theorem toString_nat_data (n : Nat) :
    ∃ L, (toString n).data = L ∧ L ≠ [] ∧
      (∀ c ∈ L, ∃ k, k < 10 ∧ c = Nat.digitChar k) ∧ stoi_digits L = n := by
  obtain ⟨L, hL, hne, hdig, hval⟩ := toDigitsCore_spec (n + 1) n [] (Nat.lt_succ_self n)
  refine ⟨L, ?_, hne, hdig, hval⟩
  rw [List.append_nil] at hL
  show (Nat.toDigits 10 n) = L
  exact hL

theorem takeWhile_isDigit_of_digits : ∀ (L : List Char),
    (∀ c ∈ L, ∃ k, k < 10 ∧ c = Nat.digitChar k) → L.takeWhile Char.isDigit = L := by
  intro L
  induction L with
  | nil => intro _; rfl
  | cons c cs ih =>
    intro h
    obtain ⟨k, hk, hc⟩ := h c (List.mem_cons_self _ _)
    have hd : c.isDigit = true := by rw [hc]; exact (digitChar_facts k hk).1
    rw [List.takeWhile_cons, hd]
    simp only [if_true]
    rw [ih (fun x hx => h x (List.mem_cons_of_mem _ hx))]

/-- The parse `stoi` makes of a non-empty run of decimal digits with an optional
minus in front. -/
theorem stoi_of_digits (s : String) (L : List Char) (neg : Bool)
    (hs : s.data = if neg then '-' :: L else L) (hne : L ≠ [])
    (hdig : ∀ c ∈ L, ∃ k, k < 10 ∧ c = Nat.digitChar k)
    (hrange : -2147483648 ≤ (if neg then -(stoi_digits L : Int) else (stoi_digits L : Int))
      ∧ (if neg then -(stoi_digits L : Int) else (stoi_digits L : Int)) ≤ 2147483647) :
    stoi s = Except.ok (if neg then -(stoi_digits L : Int) else (stoi_digits L : Int)) := by
  obtain ⟨c, cs, hL⟩ := List.exists_cons_of_ne_nil hne
  obtain ⟨k, hk, hc⟩ := hdig c (by rw [hL]; exact List.mem_cons_self _ _)
  obtain ⟨_, hsp, _, hsign⟩ := digitChar_facts k hk
  have hbody : stoi_sign (s.data.dropWhile isspace) = (neg, L) := by
    rw [hs]
    cases neg with
    | true =>
      have h1 : isspace '-' = false := by decide
      simp only [if_true, List.dropWhile_cons, h1]
      rfl
    | false =>
      simp only [Bool.false_eq_true, if_false]
      rw [hL, hc, List.dropWhile_cons, hsp]
      exact hsign cs
  unfold stoi
  simp only [hbody, takeWhile_isDigit_of_digits L hdig, if_neg hne]
  rw [if_neg (by omega)]

/-- For every value of an `int`, `stoi` reads back what `to_string` writes. -/
theorem stoi_to_string (v : Int) (hlo : -2147483648 ≤ v) (hhi : v ≤ 2147483647) :
    stoi (to_string v) = Except.ok v := by
  cases v with
  | ofNat m =>
    obtain ⟨L, hL, hne, hdig, hval⟩ := toString_nat_data m
    have h := stoi_of_digits (to_string (Int.ofNat m)) L false
      (by simp only [Bool.false_eq_true, if_false]; exact hL) hne hdig
      (by
        simp only [Bool.false_eq_true, if_false, hval]
        have : (Int.ofNat m) = (m : Int) := rfl
        omega)
    simp only [Bool.false_eq_true, if_false, hval] at h
    exact h
  | negSucc m =>
    obtain ⟨L, hL, hne, hdig, hval⟩ := toString_nat_data (m + 1)
    have hdata : (to_string (Int.negSucc m)).data = '-' :: L := by
      show ("-" ++ toString (m + 1)).data = '-' :: L
      rw [String.data_append, hL]
      rfl
    have h := stoi_of_digits (to_string (Int.negSucc m)) L true
      (by simp only [if_true]; exact hdata) hne hdig
      (by
        simp only [if_true, hval]
        have : Int.negSucc m = -((m : Int) + 1) := Int.negSucc_eq m
        push_cast
        omega)
    simp only [if_true, hval] at h
    rw [h]
    congr 1

end UCI

namespace UCI

/-! ## Typed values under assignment -/

/-- One `operator=` call on a check option returns, and the option is again a check
option whose current value is "true" or "false". -/
theorem assign_check (o : UciOption) (v : String) (ht : o.type = "check")
    (hval : o.currentValue = "true" ∨ o.currentValue = "false") :
    ∃ r, assign o v = Except.ok r ∧ r.1.type = "check" ∧
      (r.1.currentValue = "true" ∨ r.1.currentValue = "false") := by
  have h0 : o.type ≠ "" := by rw [ht]; decide
  have hb : o.type ≠ "button" := by rw [ht]; decide
  have hs : ¬ o.type = "spin" := by rw [ht]; decide
  unfold assign rejects
  rw [if_neg h0]
  by_cases h1 : o.type ≠ "button" ∧ v = ""
  · rw [if_pos h1]
    exact ⟨(o, []), rfl, ht, hval⟩
  · rw [if_neg h1]
    by_cases h2 : o.type = "check" ∧ v ≠ "true" ∧ v ≠ "false"
    · rw [if_pos h2]
      exact ⟨(o, []), rfl, ht, hval⟩
    · rw [if_neg h2, if_neg hs]
      have hv : v = "true" ∨ v = "false" := by
        by_cases ha : v = "true"
        · exact Or.inl ha
        · by_cases hb2 : v = "false"
          · exact Or.inr hb2
          · exact absurd ⟨ht, ha, hb2⟩ h2
      have hacc : (accepted o v).type = "check" ∧ (accepted o v).currentValue = v := by
        unfold accepted
        rw [if_pos hb]
        exact ⟨ht, rfl⟩
      cases o.on_change with
      | none => exact ⟨_, rfl, hacc.1, by rw [hacc.2]; exact hv⟩
      | some f => exact ⟨_, rfl, hacc.1, by rw [hacc.2]; exact hv⟩

/-- One `operator=` call on a spin option whose integer conversion is within the
bounds: if the call returns, the option is again such a spin option with the same
bounds; and the call does return when the value is empty or `stoi` parses it. -/
theorem assign_spin (o : UciOption) (v : String) (ht : o.type = "spin")
    (hval : ∃ n, stoi o.currentValue = Except.ok n ∧ o.min ≤ n ∧ n ≤ o.max) :
    (∀ r, assign o v = Except.ok r → r.1.type = "spin" ∧ r.1.min = o.min ∧
      r.1.max = o.max ∧ ∃ n, stoi r.1.currentValue = Except.ok n ∧ o.min ≤ n ∧ n ≤ o.max) ∧
    ((v = "" ∨ ∃ n, stoi v = Except.ok n) → ∃ r, assign o v = Except.ok r) := by
  have h0 : o.type ≠ "" := by rw [ht]; decide
  have hb : o.type ≠ "button" := by rw [ht]; decide
  have hc : ¬ (o.type = "check" ∧ v ≠ "true" ∧ v ≠ "false") := by
    rw [ht]; intro h; exact absurd h.1 (by decide)
  have hkeep : assign o v = Except.ok (o, []) →
      ∀ r, assign o v = Except.ok r → r.1.type = "spin" ∧ r.1.min = o.min ∧
        r.1.max = o.max ∧
        ∃ n, stoi r.1.currentValue = Except.ok n ∧ o.min ≤ n ∧ n ≤ o.max := by
    intro ha r hr
    rw [ha] at hr
    simp only [Except.ok.injEq] at hr
    rw [← hr]
    exact ⟨ht, rfl, rfl, hval⟩
  by_cases h1 : v = ""
  · have ha : assign o v = Except.ok (o, []) := by
      unfold assign rejects
      rw [if_neg h0, if_pos ⟨hb, h1⟩]
    exact ⟨hkeep ha, fun _ => ⟨_, ha⟩⟩
  · have hn1 : ¬ (o.type ≠ "button" ∧ v = "") := fun h => h1 h.2
    cases hp : stoi v with
    | error e =>
      have ha : assign o v = Except.error e := assign_throws o v e ht h1 hp
      refine ⟨?_, ?_⟩
      · intro r hr
        rw [ha] at hr
        exact Except.noConfusion hr
      · rintro (h | ⟨n, hn⟩)
        · exact absurd h h1
        · exact Except.noConfusion hn
    | ok a =>
      by_cases hmin : a < o.min
      · have ha : assign o v = Except.ok (o, []) := by
          unfold assign rejects
          rw [if_neg h0, if_neg hn1, if_neg hc, if_pos ht, hp]
          simp only [if_pos hmin]
        exact ⟨hkeep ha, fun _ => ⟨_, ha⟩⟩
      · by_cases hmax : o.max < a
        · have ha : assign o v = Except.ok (o, []) := by
            unfold assign rejects
            rw [if_neg h0, if_neg hn1, if_neg hc, if_pos ht, hp]
            simp only [if_neg hmin, hp, hmax, decide_True]
          exact ⟨hkeep ha, fun _ => ⟨_, ha⟩⟩
        · have hacc : accepted o v = { o with currentValue := v } := by
            unfold accepted
            rw [if_pos hb]
          have ha : ∃ calls, assign o v = Except.ok ({ o with currentValue := v }, calls) := by
            unfold assign rejects
            rw [if_neg h0, if_neg hn1, if_neg hc, if_pos ht, hp]
            simp only [if_neg hmin, hp, hmax, decide_False, hacc]
            cases o.on_change with
            | none => exact ⟨_, rfl⟩
            | some f => exact ⟨_, rfl⟩
          obtain ⟨calls, ha⟩ := ha
          refine ⟨?_, fun _ => ⟨_, ha⟩⟩
          intro r hr
          rw [ha] at hr
          simp only [Except.ok.injEq] at hr
          rw [← hr]
          exact ⟨ht, rfl, rfl, a, hp, by omega, by omega⟩

/-- A sequence of calls on a check option returns and keeps the value typed. -/
theorem assignSeq_check : ∀ (vs : List String) (o : UciOption), o.type = "check" →
    (o.currentValue = "true" ∨ o.currentValue = "false") →
    ∃ r, assignSeq o vs = Except.ok r ∧ r.type = "check" ∧
      (r.currentValue = "true" ∨ r.currentValue = "false") := by
  intro vs
  induction vs with
  | nil => intro o ht hval; exact ⟨o, rfl, ht, hval⟩
  | cons v vs ih =>
    intro o ht hval
    obtain ⟨r, hr, hrt, hrv⟩ := assign_check o v ht hval
    simp only [assignSeq, hr]
    exact ih r.1 hrt hrv

/-- A sequence of calls on a spin option: whenever it returns the integer conversion
is within the bounds, and it does return when every value is empty or parsed by
`stoi`. -/
theorem assignSeq_spin : ∀ (vs : List String) (o : UciOption), o.type = "spin" →
    (∃ n, stoi o.currentValue = Except.ok n ∧ o.min ≤ n ∧ n ≤ o.max) →
    (∀ r, assignSeq o vs = Except.ok r →
      ∃ n, toInt r = Except.ok n ∧ o.min ≤ n ∧ n ≤ o.max) ∧
    ((∀ s ∈ vs, s = "" ∨ ∃ n, stoi s = Except.ok n) → ∃ r, assignSeq o vs = Except.ok r) := by
  intro vs
  induction vs with
  | nil =>
    intro o ht hval
    refine ⟨?_, fun _ => ⟨o, rfl⟩⟩
    intro r hr
    simp only [assignSeq, Except.ok.injEq] at hr
    rw [← hr]
    obtain ⟨n, hn, h1, h2⟩ := hval
    refine ⟨n, ?_, h1, h2⟩
    unfold toInt
    rw [if_neg (by simp [ht]), if_pos ht, hn]
  | cons v vs ih =>
    intro o ht hval
    obtain ⟨hpres, hprog⟩ := assign_spin o v ht hval
    cases ha : assign o v with
    | error e =>
      refine ⟨?_, ?_⟩
      · intro r hr
        simp only [assignSeq, ha] at hr
        exact Except.noConfusion hr
      · intro hall
        obtain ⟨r, hr⟩ := hprog (hall v (List.mem_cons_self _ _))
        rw [ha] at hr
        exact Except.noConfusion hr
    | ok r1 =>
      obtain ⟨h1, h2, h3, h4⟩ := hpres r1 ha
      have hih := ih r1.1 h1 (by rw [h2, h3]; exact h4)
      rw [h2, h3] at hih
      simp only [assignSeq, ha]
      exact ⟨hih.1, fun hall => hih.2 (fun s hs => hall s (List.mem_cons_of_mem _ hs))⟩

/-- C12: the typed-value invariant of `Option` under assignment. (1) For every check
option constructed from a bool, every sequence of `operator=` calls with arbitrary
strings returns and leaves a current value that is "true" or "false". (2) For
every spin option constructed from `int`s with `min ≤ v ≤ max`, every sequence of
`operator=` calls with strings that `stoi` parses (or empty strings) returns, and
the integer conversion of the option afterwards lies in `[min, max]`; more
generally, whenever a sequence of calls with arbitrary strings returns, the integer
conversion lies in `[min, max]`. -/
theorem typed_value_invariant :
    (∀ (b : Bool) (f : OnChange) (vs : List String),
      ∃ o, assignSeq (mkCheck b f) vs = Except.ok o ∧
        (o.currentValue = "true" ∨ o.currentValue = "false")) ∧
    (∀ (v minv maxv : Int) (f : OnChange) (vs : List String),
      -2147483648 ≤ minv → maxv ≤ 2147483647 → minv ≤ v → v ≤ maxv →
      ((∀ s ∈ vs, s = "" ∨ ∃ n, stoi s = Except.ok n) →
        ∃ o n, assignSeq (mkSpin v minv maxv f) vs = Except.ok o ∧
          toInt o = Except.ok n ∧ minv ≤ n ∧ n ≤ maxv) ∧
      (∀ o, assignSeq (mkSpin v minv maxv f) vs = Except.ok o →
        ∃ n, toInt o = Except.ok n ∧ minv ≤ n ∧ n ≤ maxv)) := by
  refine ⟨?_, ?_⟩
  · intro b f vs
    obtain ⟨r, hr, _, hv⟩ := assignSeq_check vs (mkCheck b f) rfl
      (by cases b <;> simp [mkCheck])
    exact ⟨r, hr, hv⟩
  · intro v minv maxv f vs hlo hhi h1 h2
    have hinit : ∃ n, stoi (mkSpin v minv maxv f).currentValue = Except.ok n ∧
        (mkSpin v minv maxv f).min ≤ n ∧ n ≤ (mkSpin v minv maxv f).max :=
      ⟨v, stoi_to_string v (by omega) (by omega), h1, h2⟩
    obtain ⟨hpres, hprog⟩ := assignSeq_spin vs (mkSpin v minv maxv f) rfl hinit
    refine ⟨?_, hpres⟩
    intro hall
    obtain ⟨o, ho⟩ := hprog hall
    obtain ⟨n, hn, hn1, hn2⟩ := hpres o ho
    exact ⟨o, n, ho, hn, hn1, hn2⟩

/-- The spin option `Option(24, -100, 100)` after the calls "5", " -7x", "101", "" and
"+100": the call with "101" is rejected and the integer conversion ends at 100. -/
theorem typed_value_invariant_witness :
    (assignSeq (mkSpin 24 (-100) 100 none) ["5", " -7x", "101", "", "+100"]).toOption.map
        (fun o => o.currentValue) = some "+100" ∧
    ∃ o n, assignSeq (mkSpin 24 (-100) 100 none) ["5", " -7x", "101", "", "+100"]
        = Except.ok o ∧
      toInt o = Except.ok n ∧ (-100 : Int) ≤ n ∧ n ≤ 100 :=
  ⟨by decide,
    (typed_value_invariant.2 24 (-100) 100 none ["5", " -7x", "101", "", "+100"]
      (by decide) (by decide) (by decide) (by decide)).1
      (by
        intro s hs
        simp only [List.mem_cons, List.mem_singleton, List.not_mem_nil, or_false] at hs
        rcases hs with h | h | h | h | h
        · exact Or.inr ⟨5, by rw [h]; rfl⟩
        · exact Or.inr ⟨-7, by rw [h]; rfl⟩
        · exact Or.inr ⟨101, by rw [h]; rfl⟩
        · exact Or.inl h
        · exact Or.inr ⟨100, by rw [h]; rfl⟩)⟩

end UCI
